import Mathlib

/-!
# imgcmp: a verification development for `main.go`

The development embeds the pure and the stateful parts of `main.go`:

* the unit formatter (`byte2unit`, `diffRate`, `tableRow`), over an exact model of the
  IEEE-754 binary64 operations that the Go code performs (`float64(x)`, `/`, `*`,
  `int64(f)` and the `%.2f` verb of `fmt`);
* the per-image tasks of `main` as an interleaving step function on a shared state;
* the report writer at the end of `main`;
* `fileSize`, the classifier (`strings.Split(out, " ")[1]` and `isJPEG` ...) and the
  directory walk of `makeImageList`, with the regular expressions it compiles.
-/

namespace Imgcmp

/-! ## Machine integers -/

/-- Reduction of an integer to the two's-complement `int64` range. -/
def wrap64 (x : Int) : Int := (x + 2 ^ 63) % 2 ^ 64 - 2 ^ 63

/-- Membership in the `int64` range. -/
def isInt64 (x : Int) : Prop := -(2 ^ 63) ≤ x ∧ x < 2 ^ 63

instance (x : Int) : Decidable (isInt64 x) :=
  inferInstanceAs (Decidable (-(2 ^ 63) ≤ x ∧ x < 2 ^ 63))

/-! ## Binary64 arithmetic

A finite value is `(-1)^neg * man * 2^exp`.  Results of operations are produced by
`F64.round`, which rounds a non-negative rational `n / d` to 53 significant bits, to
nearest, ties to even, with gradual underflow below `2^-1022` and overflow to infinity. -/

/-- Values of Go's `float64`. -/
inductive F64
  | finite (neg : Bool) (man : Nat) (exp : Int)
  | inf (neg : Bool)
  | nan
  deriving DecidableEq

/-- Round half to even of the non-negative rational `n / d` to an integer. -/
def rne (n d : Nat) : Nat :=
  let q := n / d
  let r := n % d
  if 2 * r < d then q else if d < 2 * r then q + 1 else if q % 2 = 0 then q else q + 1

/-- Number of binary digits, by halving (`fuel` bounds the number of halvings). -/
def bitsAux : Nat → Nat → Nat
  | 0, _ => 0
  | fuel + 1, n => if n = 0 then 0 else bitsAux fuel (n / 2) + 1

/-- Number of binary digits of `n` (`0` for `0`). -/
def bits (n : Nat) : Nat := bitsAux n n

/-- Numerator of `n / 2^e`, as a fraction of naturals. -/
def scaleNum (n : Nat) (e : Int) : Nat := if 0 ≤ e then n else n * 2 ^ (-e).toNat

/-- Denominator of `1 / (d * 2^e)`, as a fraction of naturals. -/
def scaleDen (d : Nat) (e : Int) : Nat := if 0 ≤ e then d * 2 ^ e.toNat else d

/-- The integer `L` with `2^L ≤ n / d < 2^(L+1)`, for positive `n` and `d`. -/
def floorLog2 (n d : Nat) : Int :=
  let k : Int := (bits n : Int) - (bits d : Int)
  if scaleDen d k ≤ scaleNum n k then k else k - 1

/-- Correctly rounded binary64 value of `(-1)^neg * n / d`. -/
def F64.round (neg : Bool) (n d : Nat) : F64 :=
  if n = 0 then .finite neg 0 0
  else
    let e := max (floorLog2 n d - 52) (-1074)
    let m := rne (scaleNum n e) (scaleDen d e)
    if m = 0 then .finite neg 0 0
    else if m = 2 ^ 53 then (if 971 < e + 1 then .inf neg else .finite neg (2 ^ 52) (e + 1))
    else if 971 < e then .inf neg
    else .finite neg m e

/-- The conversion `float64(i)` of an `int64`. -/
def F64.ofInt (i : Int) : F64 := F64.round (decide (i < 0)) i.natAbs 1

/-- The function `math.Abs`. -/
def F64.abs : F64 → F64
  | .finite _ m e => .finite false m e
  | .inf _ => .inf false
  | .nan => .nan

/-- The conversion `int64(f)`: truncation toward zero.  When the truncated value is not an
`int64` (or `f` is not finite) Go leaves the result to the implementation; it is `conv f`. -/
def F64.toInt64 (conv : F64 → Int) (f : F64) : Int :=
  match f with
  | .finite neg m e =>
    let t : Int := ((scaleNum m (-e) / scaleDen 1 (-e) : Nat) : Int)
    let v : Int := if neg then -t else t
    if isInt64 v then v else conv f
  | _ => conv f

/-- The result of an out-of-range `int64(f)` on amd64 (`CVTTSD2SQ`): always `-2^63`. -/
def convAmd64 : F64 → Int := fun _ => -(2 ^ 63)

/-- The float64 quotient `x / y`. -/
def F64.div : F64 → F64 → F64
  | .nan, _ => .nan
  | _, .nan => .nan
  | .inf _, .inf _ => .nan
  | .inf s, .finite t _ _ => .inf (xor s t)
  | .finite s _ _, .inf t => .finite (xor s t) 0 0
  | .finite s m e, .finite t m' e' =>
    if m' = 0 then (if m = 0 then .nan else .inf (xor s t))
    else F64.round (xor s t) (scaleNum m (e' - e)) (scaleDen m' (e' - e))

/-- The float64 product `x * y`. -/
def F64.mul : F64 → F64 → F64
  | .nan, _ => .nan
  | _, .nan => .nan
  | .inf s, .inf t => .inf (xor s t)
  | .inf s, .finite t m _ => if m = 0 then .nan else .inf (xor s t)
  | .finite s m _, .inf t => if m = 0 then .nan else .inf (xor s t)
  | .finite s m e, .finite t m' e' =>
    F64.round (xor s t) (scaleNum (m * m') (-(e + e'))) (scaleDen 1 (-(e + e')))

/-- Two decimal digits of a number below 100. -/
def pad2 (n : Nat) : String := toString (n / 10 % 10) ++ toString (n % 10)

/-- The decimal text of `q` hundredths: the integer part, a point, two digits. -/
def dec2 (q : Nat) : String := toString (q / 100) ++ "." ++ pad2 (q % 100)

/-- The number of hundredths nearest to `m * 2^e`, ties to even. -/
def hundredths (m : Nat) (e : Int) : Nat := rne (scaleNum (m * 100) (-e)) (scaleDen 1 (-e))

/-- The verb `%.2f`: the exact binary value rounded half to even to two decimals. -/
def fmt2 : F64 → String
  | .finite neg m e => if neg then "-" ++ dec2 (hundredths m e) else dec2 (hundredths m e)
  | .inf neg => if neg then "-Inf" else "+Inf"
  | .nan => "NaN"

/-- The verb `%v` at an `int64`. -/
def fmtInt (i : Int) : String := if i < 0 then "-" ++ toString i.natAbs else toString i.natAbs

/-! ## The unit formatter (`main.go`, lines 179-204) -/

/-- The function `byte2unit`. -/
def byte2unit (conv : F64 → Int) (size : Int) : String :=
  let negative := decide (size < 0)
  let size := F64.toInt64 conv (F64.abs (F64.ofInt size))
  let res :=
    if 1000000000 ≤ size then fmt2 (F64.div (F64.ofInt size) (F64.ofInt 1000000000)) ++ " GB"
    else if 1000000 ≤ size then fmt2 (F64.div (F64.ofInt size) (F64.ofInt 1000000)) ++ " MB"
    else if 1000 ≤ size then fmt2 (F64.div (F64.ofInt size) (F64.ofInt 1000)) ++ " kB"
    else fmtInt size ++ " Byte"
  if negative then "-" ++ res else res

/-- The function `diffRate`. -/
def diffRate (before after : Int) : String :=
  fmt2 (F64.mul (F64.div (F64.ofInt (wrap64 (after - before))) (F64.ofInt before))
    (F64.ofInt 100)) ++ "%"

/-- The function `tableRow`. -/
def tableRow (conv : F64 → Int) (name : String) (before after : Int) : String :=
  "|" ++ name ++ "|" ++ byte2unit conv before ++ "|" ++ byte2unit conv after ++ "|" ++
    byte2unit conv (wrap64 (after - before)) ++ "|" ++ diffRate before after ++ "|"

/-! ## The optimization phase of `main` (lines 35-54)

Every image has its own goroutine.  The sizes that `fileSize` measures before and after
`optimizeImage` are data of the image; the shared variables are `reportTable`,
`totalBeforeSize`, `totalAfterSize` and the mutex.  A goroutine advances by atomic steps:
`reportTable = append(reportTable, row)` reads the slice and then writes it, and
`total += size` reads the total and then writes it. -/

/-- A discovered image with the sizes measured by `fileSize` around `optimizeImage`. -/
structure Image where
  path : String
  before : Int
  after : Int
  deriving DecidableEq

/-- Program counter of a goroutine, with the value it has read where it is between the
read and the write of a shared variable. -/
inductive Pc
  | start
  | locked
  | appending (table : List String)
  | unlocking
  | loadBefore
  | storeBefore (read : Int)
  | loadAfter
  | storeAfter (read : Int)
  | done
  deriving DecidableEq

/-- The shared variables of `main` and the program counters of the goroutines. -/
structure State where
  table : List String
  totalBefore : Int
  totalAfter : Int
  mutex : Option Nat
  pcs : List Pc
  deriving DecidableEq

/-- The initial value of `reportTable` (lines 27-34). -/
def tableHeader : List String :=
  ["<details>", "", "<summary>details</summary>", "",
    "|File Name|Before|After|Diff (size)|Diff (rate)|", "|:---|---:|---:|---:|---:|"]

/-- The state when all goroutines have been started (line 53). -/
def initState (imgs : List Image) : State :=
  { table := tableHeader, totalBefore := 0, totalAfter := 0, mutex := none,
    pcs := List.replicate imgs.length Pc.start }

/-- One atomic step of goroutine `i` (lines 47-51); `none` when `i` is not a goroutine,
has returned, or waits for the mutex. -/
def step (conv : F64 → Int) (imgs : List Image) (i : Nat) (s : State) : Option State :=
  match imgs[i]?, s.pcs[i]? with
  | some img, some pc =>
    match pc with
    | .start => if s.mutex = none then some { s with mutex := some i, pcs := s.pcs.set i .locked }
        else none
    | .locked => some { s with pcs := s.pcs.set i (.appending s.table) }
    | .appending t =>
      some { s with table := t ++ [tableRow conv img.path img.before img.after],
                    pcs := s.pcs.set i .unlocking }
    | .unlocking => some { s with mutex := none, pcs := s.pcs.set i .loadBefore }
    | .loadBefore => some { s with pcs := s.pcs.set i (.storeBefore s.totalBefore) }
    | .storeBefore r =>
      some { s with totalBefore := wrap64 (r + img.before), pcs := s.pcs.set i .loadAfter }
    | .loadAfter => some { s with pcs := s.pcs.set i (.storeAfter s.totalAfter) }
    | .storeAfter r =>
      some { s with totalAfter := wrap64 (r + img.after), pcs := s.pcs.set i .done }
    | .done => none
  | _, _ => none

/-- An execution: the goroutines step in the order given by the schedule. -/
def run (conv : F64 → Int) (imgs : List Image) : List Nat → State → Option State
  | [], s => some s
  | i :: rest, s =>
    match step conv imgs i s with
    | some s' => run conv imgs rest s'
    | none => none

/-- The condition that `wg.Wait()` waits for (line 54): every goroutine has returned. -/
def allDone (s : State) : Prop := ∀ pc ∈ s.pcs, pc = Pc.done

instance (s : State) : Decidable (allDone s) :=
  inferInstanceAs (Decidable (∀ pc ∈ s.pcs, pc = Pc.done))

/-- A goroutine at this program counter is about to write a shared variable. -/
def Pc.writesShared : Pc → Bool
  | .appending _ => true
  | .storeBefore _ => true
  | .storeAfter _ => true
  | _ => false

/-- A goroutine at this program counter holds the mutex (lines 47-49). -/
def Pc.holds : Pc → Bool
  | .locked => true
  | .appending _ => true
  | .unlocking => true
  | _ => false

/-- A goroutine at this program counter has appended its row (after line 48). -/
def Pc.past : Pc → Bool
  | .start => false
  | .locked => false
  | .appending _ => false
  | _ => true

/-- The rows of the goroutines that have appended theirs, in the order of the image list. -/
def rowsOf (conv : F64 → Int) : List Image → List Pc → List String
  | img :: imgs, pc :: pcs =>
    if pc.past then tableRow conv img.path img.before img.after :: rowsOf conv imgs pcs
    else rowsOf conv imgs pcs
  | _, _ => []

/-- The invariant of the optimization phase: one program counter per image; the mutex is
held exactly by the goroutine between `Lock` and `Unlock`; a goroutine that has read
`reportTable` has read its current value; and the table is the header followed by the rows
of the goroutines that have appended, in some order. -/
structure Inv (conv : F64 → Int) (imgs : List Image) (s : State) : Prop where
  len : s.pcs.length = imgs.length
  mutexHolds : ∀ (j : Nat) (pc : Pc), s.pcs[j]? = some pc → (pc.holds = true ↔ s.mutex = some j)
  readCurrent : ∀ (j : Nat) (t : List String), s.pcs[j]? = some (Pc.appending t) → t = s.table
  rows : ∃ rows, s.table = tableHeader ++ rows ∧ rows.Perm (rowsOf conv imgs s.pcs)

/-- The execution in which the goroutines run one after the other, each through its eight
steps. -/
def serialSchedule (first count : Nat) : List Nat :=
  match count with
  | 0 => []
  | n + 1 => List.replicate 8 first ++ serialSchedule (first + 1) n

/-- The state when the first `k` goroutines have returned and the others have not started. -/
def stateAfter (conv : F64 → Int) (imgs : List Image) (k : Nat) : State :=
  { table := tableHeader ++ (imgs.take k).map fun g => tableRow conv g.path g.before g.after,
    totalBefore := wrap64 ((imgs.take k).map fun g => g.before).sum,
    totalAfter := wrap64 ((imgs.take k).map fun g => g.after).sum,
    mutex := none,
    pcs := List.replicate k Pc.done ++ List.replicate (imgs.length - k) Pc.start }

/-! ## The report writer of `main` (lines 17-26 and 56-83) -/

/-- The summary sentence (lines 64-68). -/
def summaryLine (conv : F64 → Int) (totalBefore totalAfter : Int) : String :=
  "Your image files have been optimized (File size: **" ++
    byte2unit conv (wrap64 (totalAfter - totalBefore)) ++ "** (**" ++
    diffRate totalBefore totalAfter ++ "**))!"

/-- The content written to `./pull_request_message.md`, if any, for the image list and the
state after `wg.Wait()`; `createOk` tells whether `os.Create` succeeds. -/
def document (conv : F64 → Int) (imgs : List Image) (s : State) (createOk : Bool) :
    Option String :=
  if imgs.length = 0 then none
  else
    let pullRequestMessage := ["[imgcmp] Optimize images", "", "## Successfully optimized"]
    if wrap64 (s.totalAfter - s.totalBefore) = 0 then none
    else
      let reportTable :=
        s.table ++ [tableRow conv "Total" s.totalBefore s.totalAfter, "", "</details>"]
      let pullRequestMessage :=
        pullRequestMessage ++ [summaryLine conv s.totalBefore s.totalAfter, ""]
      if createOk then some (String.intercalate "\n" (pullRequestMessage ++ reportTable))
      else none

/-- The two images of the end-to-end scenario of the specification. -/
def scenario : List Image :=
  [{ path := "a.jpg", before := 200000, after := 150000 },
   { path := "b.png", before := 100000, after := 100000 }]

/-- The state of the scenario after the join when the goroutines run one after the other. -/
def scenarioFinal : State :=
  { table := tableHeader ++ ["|a.jpg|200.00 kB|150.00 kB|-50.00 kB|-25.00%|",
      "|b.png|100.00 kB|100.00 kB|0 Byte|0.00%|"],
    totalBefore := 300000, totalAfter := 250000, mutex := none, pcs := [Pc.done, Pc.done] }

/-! ## Reference renderings for the unit formatter -/

/-- Name of the unit that is used for a magnitude of at least 1000 bytes. -/
def unitName (m : Nat) : String :=
  if 10 ^ 9 ≤ m then " GB" else if 10 ^ 6 ≤ m then " MB" else " kB"

/-- Number of bytes in one hundredth of that unit. -/
def centi (m : Nat) : Nat :=
  if 10 ^ 9 ≤ m then 10 ^ 7 else if 10 ^ 6 ≤ m then 10 ^ 4 else 10

/-- The hundredths of the unit that the binary64 computation `float64(m) / unit` followed by
`%.2f` yields for the magnitude `m`. -/
def printedHundredths (m : Nat) : Nat :=
  match F64.div (F64.ofInt m) (F64.ofInt (100 * centi m : Nat)) with
  | .finite _ M E => hundredths M E
  | _ => 0

/-- The text for a magnitude: an integer number of bytes below 1000, two decimals above. -/
def magnitudeText (m : Nat) : String :=
  if m < 1000 then toString m ++ " Byte" else dec2 (printedHundredths m) ++ unitName m

/-- The rendering in the words of the specification: the exact quotient `|size| / unit`
rounded (half to even) to two decimals, and a sign prefix for negative sizes. -/
def byte2unitSpec (size : Int) : String :=
  let m := size.natAbs
  let text :=
    if m < 1000 then toString m ++ " Byte" else dec2 (rne m (centi m)) ++ unitName m
  if size < 0 then "-" ++ text else text

/-- The hundredths of a percent that the binary64 computation of `diffRate` followed by
`%.2f` yields. -/
def rateHundredths (before after : Int) : Nat :=
  match F64.mul (F64.div (F64.ofInt (wrap64 (after - before))) (F64.ofInt before))
      (F64.ofInt 100) with
  | .finite _ M E => hundredths M E
  | _ => 0

/-- The rate in the words of the specification: the exact value
`(after - before) / before * 100` rounded (half to even) to two decimals, with a minus sign
when the value is negative, followed by "%". -/
def diffRateSpec (before after : Int) : String :=
  let d := after - before
  let q := rne (10000 * d.natAbs) before.natAbs
  (if (d < 0 ∧ 0 < before) ∨ (0 < d ∧ before < 0) then "-" ++ dec2 q else dec2 q) ++ "%"

/-! ## Early ends of the program -/

/-- How the program can end before it is done: a run-time panic of Go, `os.Exit(code)`, or
a regular expression outside the syntax that is modelled below. -/
inductive Crash
  | panic
  | exit (code : Nat)
  | unmodelled
  deriving DecidableEq

deriving instance DecidableEq for Except

/-! ## `fileSize` (lines 167-177) -/

/-- The file system calls of `fileSize`: `os.Open` gives a handle or an error text, and
`Stat` on a handle gives the size or an error text. -/
structure FileSys where
  osOpen : String → Except String Nat
  stat : Nat → Except String Int

/-- The method `(*os.File).Stat`: on the nil receiver it returns `(nil, ErrInvalid)`. -/
def fileStat (fs : FileSys) : Option Nat → Except String Int
  | none => .error "invalid argument"
  | some f => fs.stat f

/-- The function `fileSize`: the lines printed, and the size returned or the panic of
`info.Size()` on a nil `FileInfo`. -/
def fileSize (fs : FileSys) (path : String) : List String × Except Crash Int :=
  let (file, printed1) :=
    match fs.osOpen path with
    | .ok f => (some f, [])
    | .error errOpen => (none, [errOpen])
  let (info, printed2) :=
    match fileStat fs file with
    | .ok size => (some size, [])
    | .error errStat => (none, [errStat])
  (printed1 ++ printed2,
    match info with
    | some size => .ok size
    | none => .error .panic)

/-! ## The classifier (lines 115, 129-156, 158-165) -/

/-- The function `execCommand`: the output of the command, or `os.Exit(1)` when it fails.
The external world is `exec`, which gives the output of a command or `none` on failure. -/
def execCommand (exec : String → List String → Option String) (command : String)
    (args : List String) : Except Crash String :=
  match exec command args with
  | some output => .ok output
  | none => .error (.exit 1)

/-- The function `strings.Split(s, " ")` on the characters of `s`. -/
def splitSpace : List Char → List (List Char)
  | [] => [[]]
  | c :: cs =>
    match splitSpace cs with
    | [] => [[]]
    | w :: ws => if c = ' ' then [] :: w :: ws else (c :: w) :: ws

/-- The expression `strings.Split(output, " ")[1]`: a panic when there is no index 1. -/
def secondField (output : String) : Except Crash String :=
  match splitSpace output.data with
  | _ :: t :: _ => .ok (String.mk t)
  | _ => .error .panic

/-- The function `isJPEG`. -/
def isJPEG (fileType : String) : Bool := fileType == "JPEG"

/-- The function `isPNG`. -/
def isPNG (fileType : String) : Bool := fileType == "PNG"

/-- The function `isGIF`. -/
def isGIF (fileType : String) : Bool := fileType == "GIF"

/-- The function `isSVG`. -/
def isSVG (fileType : String) : Bool := fileType == "SVG"

/-- The function `optimizeImage`: the optimizer command that is run, if any. -/
def optimizeImage (exec : String → List String → Option String) (path : String) :
    Except Crash (Option (String × List String)) := do
  let output ← execCommand exec "file" [path]
  let fileType ← secondField output
  if isJPEG fileType then
    let _ ← execCommand exec "jpegoptim" ["-m85", path]
    pure (some ("jpegoptim", ["-m85", path]))
  else if isPNG fileType then
    let _ ← execCommand exec "optipng" ["-o2", path]
    pure (some ("optipng", ["-o2", path]))
  else if isGIF fileType then
    let _ ← execCommand exec "gifsicle" ["-b", "-O3", "--colors", "256", path]
    pure (some ("gifsicle", ["-b", "-O3", "--colors", "256", path]))
  else if isSVG fileType then
    let _ ← execCommand exec "svgo" [path]
    pure (some ("svgo", [path]))
  else pure none

/-! ## Regular expressions

The part of the syntax of Go's `regexp` that is modelled: literals, `.`, `^`, `$`, escaped
punctuation, groups, `|`, and the repetitions `*`, `+`, `?` (also in their lazy form).
Matching is on the whole text with `^` and `$` at its two ends; `.` matches every character
except the newline. -/

/-- Abstract syntax of the modelled regular expressions. -/
inductive Re
  | empty
  | lit (c : Char)
  | any
  | bol
  | eol
  | cat (a b : Re)
  | alt (a b : Re)
  | star (a : Re)
  | plus (a : Re)
  | opt (a : Re)
  deriving DecidableEq

/-- The positions reachable from the positions `ps` by zero or more rounds of `f`. -/
def closure (f : Nat → List Nat) : Nat → List Nat → List Nat
  | 0, ps => ps
  | fuel + 1, ps => ps ++ closure f fuel (ps.flatMap f)

/-- The positions at which a match of the expression that starts at `pos` can end. -/
def Re.ends (text : List Char) : Re → Nat → List Nat
  | .empty, pos => [pos]
  | .lit c, pos => if text[pos]? = some c then [pos + 1] else []
  | .any, pos =>
    match text[pos]? with
    | some d => if d = '\n' then [] else [pos + 1]
    | none => []
  | .bol, pos => if pos = 0 then [pos] else []
  | .eol, pos => if pos = text.length then [pos] else []
  | .cat a b, pos => (a.ends text pos).flatMap (b.ends text)
  | .alt a b, pos => a.ends text pos ++ b.ends text pos
  | .star a, pos => closure (a.ends text) (text.length + 1) [pos]
  | .plus a, pos => closure (a.ends text) (text.length + 1) (a.ends text pos)
  | .opt a, pos => pos :: a.ends text pos

/-- The method `MatchString`: the expression matches some part of the text. -/
def Re.matchString (r : Re) (s : String) : Bool :=
  (List.range (s.data.length + 1)).any fun start => !(r.ends s.data start).isEmpty

/-- What the parser has read of the alternation at hand: the alternatives that are complete,
the concatenation at hand, its last item (which a repetition applies to), and whether the
last token was a repetition. -/
structure ParseState where
  alts : Option Re
  cur : Re
  last : Option Re
  rep : Bool

/-- The concatenation at hand with its last item. -/
def ParseState.seq (p : ParseState) : Re :=
  match p.last with
  | some r => if p.cur = .empty then r else .cat p.cur r
  | none => p.cur

/-- The alternation read so far. -/
def ParseState.result (p : ParseState) : Re :=
  match p.alts with
  | some a => .alt a p.seq
  | none => p.seq

/-- A new item after the ones read. -/
def ParseState.push (p : ParseState) (r : Re) : ParseState :=
  { p with cur := p.seq, last := some r, rep := false }

/-- Characters that stand for themselves after a backslash: ASCII punctuation. -/
def isPunct (c : Char) : Bool := c.val < 128 && !c.isAlphanum && 32 < c.val

/-- The parser of an alternation, up to the end of the pattern or to a closing parenthesis
that it leaves in place.  `Crash.panic` stands for an error of `regexp.Compile`.  A
character class, a counted repetition, a group that starts with `(?` and a backslash before
anything but punctuation are outside the modelled syntax: the result is then
`Crash.unmodelled`, which says nothing about what `regexp.Compile` does. -/
def parseRe : Nat → List Char → ParseState → Except Crash (Re × List Char)
  | 0, _, _ => .error .unmodelled
  | _ + 1, [], p => .ok (p.result, [])
  | fuel + 1, c :: cs, p =>
    if c = ')' then .ok (p.result, c :: cs)
    else if c = '|' then
      parseRe fuel cs { alts := some p.result, cur := .empty, last := none, rep := false }
    else if c = '(' then
      match cs with
      | '?' :: _ => .error .unmodelled
      | _ =>
        match parseRe fuel cs { alts := none, cur := .empty, last := none, rep := false } with
        | .ok (r, ')' :: rest) => parseRe fuel rest (p.push r)
        | .ok _ => .error .panic
        | .error e => .error e
    else if c = '*' ∨ c = '+' ∨ c = '?' then
      match p.last with
      | none => .error .panic
      | some r =>
        if p.rep then .error .panic
        else
          let r' := if c = '*' then Re.star r else if c = '+' then Re.plus r else Re.opt r
          let rest := match cs with
            | '?' :: cs' => cs'
            | _ => cs
          parseRe fuel rest { p with last := some r', rep := true }
    else if c = '.' then parseRe fuel cs (p.push .any)
    else if c = '^' then parseRe fuel cs (p.push .bol)
    else if c = '$' then parseRe fuel cs (p.push .eol)
    else if c = '\\' then
      match cs with
      | [] => .error .panic
      | d :: cs' => if isPunct d then parseRe fuel cs' (p.push (.lit d)) else .error .unmodelled
    else if c = '[' ∨ c = ']' ∨ c = '{' ∨ c = '}' then .error .unmodelled
    else parseRe fuel cs (p.push (.lit c))

/-- The function `regexp.MustCompile`: it panics when the pattern is not a valid expression. -/
def mustCompile (pattern : String) : Except Crash Re :=
  match parseRe (pattern.data.length + 1) pattern.data
      { alts := none, cur := .empty, last := none, rep := false } with
  | .ok (r, []) => .ok r
  | .ok _ => .error .panic
  | .error e => .error e

/-! ## The directory walk of `makeImageList` (lines 99-127) -/

/-- A directory tree as `filepath.Walk` reads it: the entries of a directory in the order in
which they are visited. -/
inductive Node
  | file (name : String)
  | dir (name : String) (children : List Node)

/-- The name of a directory entry (`info.Name()`). -/
def Node.name : Node → String
  | .file n => n
  | .dir n _ => n

/-- The elements of a path between its separators. -/
def splitSlash : List Char → List (List Char)
  | [] => [[]]
  | c :: cs =>
    match splitSlash cs with
    | [] => [[]]
    | w :: ws => if c = '/' then [] :: w :: ws else (c :: w) :: ws

/-- One round of the loop of `filepath.Clean` on the elements kept so far: an empty element
and `.` are dropped, `..` removes the last element kept unless there is none or it is `..`
itself (then `..` is kept in a relative path and dropped in a rooted one), and every other
element is kept. -/
def cleanStep (rooted : Bool) (out : List (List Char)) (elem : List Char) : List (List Char) :=
  if elem = [] ∨ elem = ['.'] then out
  else if elem = ['.', '.'] then
    match out.getLast? with
    | none => if rooted then out else [elem]
    | some top => if top = ['.', '.'] then out ++ [elem] else out.dropLast
  else out ++ [elem]

/-- The function `filepath.Clean` on a Unix path. -/
def cleanPath (path : List Char) : List Char :=
  let rooted := path.head? == some '/'
  let out := (splitSlash path).foldl (cleanStep rooted) []
  if rooted then '/' :: List.intercalate ['/'] out
  else if out = [] then ['.']
  else List.intercalate ['/'] out

/-- The function `filepath.Join(dir, name)`, with which `filepath.Walk` forms the path of a
directory entry: the non-empty arguments joined by a separator, in clean form. -/
def joinPath (dir name : String) : String :=
  if dir ≠ "" then String.mk (cleanPath (dir.data ++ '/' :: name.data))
  else if name ≠ "" then String.mk (cleanPath name.data)
  else ""

mutual
/-- The function `walk` of `path/filepath` with the callback of `makeImageList`: the image
list after the visit of the node at `path`.  The two compiled expressions enter through
their `MatchString`: `ignored` on paths and `skipDir` on names. -/
def walk (exec : String → List String → Option String) (ignored skipDir : String → Bool) :
    String → Node → List String → Except Crash (List String)
  | path, .file _, imageList =>
    match execCommand exec "file" [path] with
    | .error e => .error e
    | .ok output =>
      match secondField output with
      | .error e => .error e
      | .ok fileType =>
        if !ignored path &&
            (isJPEG fileType || isPNG fileType || isGIF fileType || isSVG fileType) then
          .ok (imageList ++ [path])
        else .ok imageList
  | path, .dir name children, imageList =>
    if skipDir name then .ok imageList
    else walkList exec ignored skipDir path children imageList
/-- The loop of `walk` over the entries of the directory at `path`. -/
def walkList (exec : String → List String → Option String) (ignored skipDir : String → Bool) :
    String → List Node → List String → Except Crash (List String)
  | _, [], imageList => .ok imageList
  | path, child :: rest, imageList =>
    match walk exec ignored skipDir (joinPath path child.name) child imageList with
    | .error e => .error e
    | .ok imageList' => walkList exec ignored skipDir path rest imageList'
end

/-- The function `makeImageList` on the tree found at `root`. -/
def makeImageList (exec : String → List String → Option String) (root : String) (tree : Node)
    (ignoredFileList : List String) : Except Crash (List String) :=
  match mustCompile (String.intercalate "|" ignoredFileList) with
  | .error e => .error e
  | .ok compiled =>
    match (if ignoredFileList.length = 0 then mustCompile "0^" else .ok compiled) with
    | .error e => .error e
    | .ok ignoredRegexp =>
      match mustCompile "^\\..+" with
      | .error e => .error e
      | .ok skipDirRegexp =>
        walk exec ignoredRegexp.matchString skipDirRegexp.matchString root tree []

/-! ## The image types in the words of the specification -/

/-- The types of the File Classifier. -/
inductive ImageType
  | jpeg
  | png
  | gif
  | svg
  | unsupported
  deriving DecidableEq

/-- The type that the specification gives to a second token: one of the four literals, and
unsupported for everything else. -/
def ImageType.ofToken (token : String) : ImageType :=
  if token = "JPEG" then .jpeg
  else if token = "PNG" then .png
  else if token = "GIF" then .gif
  else if token = "SVG" then .svg
  else .unsupported

/-- The optimizer command of the Optimizer Dispatcher for a type, if any. -/
def optimizerOf : ImageType → String → Option (String × List String)
  | .jpeg, path => some ("jpegoptim", ["-m85", path])
  | .png, path => some ("optipng", ["-o2", path])
  | .gif, path => some ("gifsicle", ["-b", "-O3", "--colors", "256", path])
  | .svg, path => some ("svgo", [path])
  | .unsupported, _ => none

/-! ## Directories that are skipped -/

/-- The expression that `regexp.MustCompile` yields for the pattern of `skipDirRegexp`. -/
def skipDirRe : Re := .cat (.cat .bol (.lit '.')) (.plus .any)

/-- A name that begins with a dot, in the words of the specification. -/
def beginsWithDot (name : String) : Bool := name.data.head? == some '.'

/-- A name that starts with a dot followed by a character that is not a newline. -/
def skippedName (name : String) : Bool :=
  match name.data with
  | '.' :: c :: _ => c != '\n'
  | _ => false

mutual
/-- The paths of all files in the tree at `path`. -/
def filesIn : String → Node → List String
  | path, .file _ => [path]
  | path, .dir _ children => filesInList path children
/-- The paths of all files in the entries of the directory at `path`. -/
def filesInList : String → List Node → List String
  | _, [] => []
  | path, child :: rest => filesIn (joinPath path child.name) child ++ filesInList path rest
end

mutual
/-- The paths of the files that lie inside a directory whose name satisfies `hide`. -/
def hiddenFiles (hide : String → Bool) : String → Node → List String
  | _, .file _ => []
  | path, .dir name children =>
    if hide name then filesInList path children else hiddenList hide path children
/-- The same for the entries of the directory at `path`. -/
def hiddenList (hide : String → Bool) : String → List Node → List String
  | _, [] => []
  | path, child :: rest =>
    hiddenFiles hide (joinPath path child.name) child ++ hiddenList hide path rest
end

mutual
/-- The paths of the files that do not lie inside a directory whose name satisfies `hide`. -/
def shownFiles (hide : String → Bool) : String → Node → List String
  | path, .file _ => [path]
  | path, .dir name children => if hide name then [] else shownList hide path children
/-- The same for the entries of the directory at `path`. -/
def shownList (hide : String → Bool) : String → List Node → List String
  | _, [] => []
  | path, child :: rest =>
    shownFiles hide (joinPath path child.name) child ++ shownList hide path rest
end

mutual
/-- The tree without the contents of the directories with a skipped name. -/
def prune : Node → Node
  | .file n => .file n
  | .dir name children => if skippedName name then .dir name [] else .dir name (pruneList children)
/-- The same for a list of entries. -/
def pruneList : List Node → List Node
  | [] => []
  | child :: rest => prune child :: pruneList rest
end

/-- The test of the file callback of `makeImageList` on a path: the output of `file` has a
second field that is one of the four literals, and the ignore expression does not match. -/
def listed (exec : String → List String → Option String) (ignored : String → Bool)
    (path : String) : Bool :=
  match exec "file" [path] with
  | some output =>
    match secondField output with
    | .ok fileType =>
      !ignored path && (isJPEG fileType || isPNG fileType || isGIF fileType || isSVG fileType)
    | .error _ => false
  | none => false

/-! ## Concrete environments used in the evaluations -/

/-- A file system in which no file can be opened. -/
def noFiles : FileSys :=
  { osOpen := fun path => .error ("open " ++ path ++ ": no such file or directory"),
    stat := fun _ => .error "bad file descriptor" }

/-- A file system in which every file opens but `Stat` fails. -/
def noStat : FileSys :=
  { osOpen := fun _ => .ok 3, stat := fun _ => .error "stat: input/output error" }

/-- A file system in which every file has 1234 bytes. -/
def allFiles : FileSys :=
  { osOpen := fun _ => .ok 3, stat := fun _ => .ok 1234 }

/-- An external world in which `file` describes every path as a PNG image, in the format of
the `file` utility, and every other command succeeds. -/
def execPng : String → List String → Option String := fun command args =>
  if command = "file" then some (String.intercalate " " args ++ ": PNG image data, 1 x 1")
  else some ""

/-- A tree with the directory `.git` and a directory whose name is a dot, a newline and `x`. -/
def dotNewlineTree : Node :=
  .dir "r" [.dir ".git" [.file "x.png"], .dir ".\nx" [.file "y.png"]]

/-- A tree with an image next to the directory `.git`. -/
def dotGitTree : Node := .dir "r" [.dir ".git" [.file "x.png"], .file "a.png"]

/-- An external world in which the output of `file` has no space. -/
def execNoSpace : String → List String → Option String := fun _ _ => some "data"

/-! ## Theorems -/

set_option maxRecDepth 100000

theorem rne_cases (n d : Nat) :
    (rne n d = n / d ∧ 2 * (n % d) ≤ d) ∨ (rne n d = n / d + 1 ∧ d ≤ 2 * (n % d)) := by
  unfold rne
  simp only
  split_ifs with h1 h2 h3
  · left; exact ⟨rfl, by omega⟩
  · right; exact ⟨rfl, by omega⟩
  · left; exact ⟨rfl, by omega⟩
  · right; exact ⟨rfl, by omega⟩

/-- The rounded integer is within one half of the rational (stated on naturals). -/
theorem rne_bounds (n d : Nat) (hd : 0 < d) :
    2 * (rne n d * d) ≤ 2 * n + d ∧ 2 * n ≤ 2 * (rne n d * d) + d := by
  have hdiv := Nat.div_add_mod n d
  rcases rne_cases n d with ⟨h, h'⟩ | ⟨h, h'⟩
  · rw [h]
    generalize n / d = q at *
    generalize n % d = r at *
    subst hdiv
    constructor <;> nlinarith
  · rw [h, Nat.add_mul]
    have hmod := Nat.mod_lt n hd
    generalize n / d = q at *
    generalize n % d = r at *
    subst hdiv
    constructor <;> nlinarith

theorem rne_exact (k d : Nat) (hd : 0 < d) : rne (k * d) d = k := by
  unfold rne
  simp [Nat.mul_div_cancel _ hd, hd]

theorem bitsAux_spec : ∀ (fuel n : Nat), n ≤ fuel → 0 < n →
    2 ^ (bitsAux fuel n - 1) ≤ n ∧ n < 2 ^ bitsAux fuel n ∧ 0 < bitsAux fuel n
  | 0, n, h, hn => by omega
  | fuel + 1, n, h, hn => by
    have hn' : n ≠ 0 := by omega
    simp only [bitsAux, if_neg hn']
    by_cases h2 : n / 2 = 0
    · have h1 : n = 1 := by omega
      subst h1
      cases fuel <;> simp [bitsAux]
    · have ih := bitsAux_spec fuel (n / 2) (by omega) (by omega)
      obtain ⟨a, b, c⟩ := ih
      refine ⟨?_, ?_, by omega⟩
      · have : bitsAux fuel (n / 2) + 1 - 1 = (bitsAux fuel (n / 2) - 1) + 1 := by omega
        rw [this, pow_succ]; omega
      · rw [pow_succ]; omega

theorem bits_spec (n : Nat) (hn : 0 < n) :
    2 ^ (bits n - 1) ≤ n ∧ n < 2 ^ bits n ∧ 0 < bits n :=
  bitsAux_spec n n le_rfl hn

theorem scale_ratio (n d : Nat) (e : Int) (hd : 0 < d) :
    (scaleNum n e : ℚ) / (scaleDen d e : ℚ) = ((n : ℚ) / d) / (2 : ℚ) ^ e := by
  have hd' : (d : ℚ) ≠ 0 := by positivity
  unfold scaleNum scaleDen
  by_cases h : 0 ≤ e
  · obtain ⟨k, rfl⟩ := Int.eq_ofNat_of_zero_le h
    simp only [h, if_true, Int.toNat_ofNat, zpow_natCast, Nat.cast_mul, Nat.cast_pow,
      Nat.cast_ofNat]
    field_simp
  · have h' : e = -((-e).toNat : Int) := by omega
    rw [if_neg h, if_neg h]
    conv_rhs => rw [h']
    rw [zpow_neg, zpow_natCast]
    push_cast
    field_simp

theorem scaleDen_pos (d : Nat) (e : Int) (hd : 0 < d) : 0 < scaleDen d e := by
  unfold scaleDen
  split_ifs <;> positivity

theorem rne_rat (n d : Nat) (hd : 0 < d) : |(rne n d : ℚ) - (n : ℚ) / d| ≤ 1 / 2 := by
  obtain ⟨h1, h2⟩ := rne_bounds n d hd
  have hd' : (0 : ℚ) < d := by exact_mod_cast hd
  have h1' : 2 * ((rne n d : ℚ) * d) ≤ 2 * n + d := by exact_mod_cast h1
  have h2' : 2 * (n : ℚ) ≤ 2 * ((rne n d : ℚ) * d) + d := by exact_mod_cast h2
  have key : (rne n d : ℚ) - (n : ℚ) / d = ((rne n d : ℚ) * d - n) / d := by
    field_simp
  rw [key, abs_le, le_div_iff₀ hd', div_le_iff₀ hd']
  constructor <;> linarith

/-- Rounding of a scaled fraction, as a statement on rationals. -/
theorem rne_scale (n d : Nat) (e : Int) (hd : 0 < d) :
    |(rne (scaleNum n e) (scaleDen d e) : ℚ) - ((n : ℚ) / d) / (2 : ℚ) ^ e| ≤ 1 / 2 := by
  rw [← scale_ratio n d e hd]
  exact rne_rat _ _ (scaleDen_pos d e hd)

theorem scale_le_iff (n d : Nat) (e : Int) (hd : 0 < d) :
    scaleDen d e ≤ scaleNum n e ↔ (2 : ℚ) ^ e ≤ (n : ℚ) / d := by
  have h := scale_ratio n d e hd
  have hp : (0 : ℚ) < scaleDen d e := by exact_mod_cast scaleDen_pos d e hd
  have h2 : (0 : ℚ) < (2 : ℚ) ^ e := by positivity
  rw [← Nat.cast_le (α := ℚ), ← one_le_div hp, h, le_div_iff₀ h2, one_mul]

theorem floorLog2_spec (n d : Nat) (hn : 0 < n) (hd : 0 < d) :
    (2 : ℚ) ^ (floorLog2 n d) ≤ (n : ℚ) / d ∧ (n : ℚ) / d < (2 : ℚ) ^ (floorLog2 n d + 1) := by
  obtain ⟨n1, n2, n3⟩ := bits_spec n hn
  obtain ⟨d1, d2, d3⟩ := bits_spec d hd
  have hd' : (0 : ℚ) < d := by exact_mod_cast hd
  have hn' : (0 : ℚ) < n := by exact_mod_cast hn
  have n1' : (2 : ℚ) ^ ((bits n : ℤ) - 1) ≤ n := by
    have : ((bits n : ℤ) - 1) = ((bits n - 1 : ℕ) : ℤ) := by omega
    rw [this, zpow_natCast]; exact_mod_cast n1
  have n2' : (n : ℚ) < (2 : ℚ) ^ (bits n : ℤ) := by
    rw [zpow_natCast]; exact_mod_cast n2
  have d1' : (2 : ℚ) ^ ((bits d : ℤ) - 1) ≤ d := by
    have : ((bits d : ℤ) - 1) = ((bits d - 1 : ℕ) : ℤ) := by omega
    rw [this, zpow_natCast]; exact_mod_cast d1
  have d2' : (d : ℚ) < (2 : ℚ) ^ (bits d : ℤ) := by
    rw [zpow_natCast]; exact_mod_cast d2
  have two : (2 : ℚ) ≠ 0 := by norm_num
  unfold floorLog2
  simp only
  split_ifs with h
  · rw [scale_le_iff n d _ hd] at h
    refine ⟨h, ?_⟩
    rw [div_lt_iff₀ hd']
    calc (n : ℚ) < (2 : ℚ) ^ (bits n : ℤ) := n2'
      _ = (2 : ℚ) ^ ((bits n : ℤ) - bits d + 1) * (2 : ℚ) ^ ((bits d : ℤ) - 1) := by
          rw [← zpow_add₀ two]; congr 1; ring
      _ ≤ (2 : ℚ) ^ ((bits n : ℤ) - bits d + 1) * d := by
          apply mul_le_mul_of_nonneg_left d1'; positivity
  · rw [scale_le_iff n d _ hd, not_le] at h
    refine ⟨?_, by simpa using h⟩
    rw [le_div_iff₀ hd']
    calc (2 : ℚ) ^ ((bits n : ℤ) - bits d - 1) * d
        ≤ (2 : ℚ) ^ ((bits n : ℤ) - bits d - 1) * (2 : ℚ) ^ (bits d : ℤ) := by
          apply mul_le_mul_of_nonneg_left d2'.le; positivity
      _ = (2 : ℚ) ^ ((bits n : ℤ) - 1) := by
          rw [← zpow_add₀ two]; congr 1; ring
      _ ≤ n := n1'

theorem log2_unique (x : ℚ) (a b : ℤ) (ha : (2 : ℚ) ^ a ≤ x) (ha' : x < (2 : ℚ) ^ (a + 1))
    (hb : (2 : ℚ) ^ b ≤ x) (hb' : x < (2 : ℚ) ^ (b + 1)) : a = b := by
  have h1 : (2 : ℚ) ^ a < (2 : ℚ) ^ (b + 1) := lt_of_le_of_lt ha hb'
  have h2 : (2 : ℚ) ^ b < (2 : ℚ) ^ (a + 1) := lt_of_le_of_lt hb ha'
  rw [zpow_lt_zpow_iff_right₀ (by norm_num : (1 : ℚ) < 2)] at h1 h2
  omega

/-- What `F64.round` returns on a positive fraction inside the normal range: a 53-bit
significand, an exponent read off `floorLog2`, and an error of at most half a unit in the
last place. -/
theorem round_spec (neg : Bool) (n d : Nat) (hn : 0 < n) (hd : 0 < d)
    (hlo : -1022 ≤ floorLog2 n d) (hhi : floorLog2 n d ≤ 1022) :
    ∃ M E, F64.round neg n d = .finite neg M E ∧ 2 ^ 52 ≤ M ∧ M < 2 ^ 53 ∧
      (E = floorLog2 n d - 52 ∨ (E = floorLog2 n d - 51 ∧ M = 2 ^ 52)) ∧
      |(M : ℚ) * (2 : ℚ) ^ E - (n : ℚ) / d| ≤ (2 : ℚ) ^ (floorLog2 n d - 52) / 2 := by
  obtain ⟨l1, l2⟩ := floorLog2_spec n d hn hd
  have two : (2 : ℚ) ≠ 0 := by norm_num
  set L := floorLog2 n d with hL
  have he : max (L - 52) (-1074) = L - 52 := by omega
  have hpe : (0 : ℚ) < (2 : ℚ) ^ (L - 52) := by positivity
  have hr := rne_scale n d (L - 52) hd
  set m := rne (scaleNum n (L - 52)) (scaleDen d (L - 52)) with hm
  -- the scaled fraction lies in [2^52, 2^53)
  have x1 : (2 : ℚ) ^ (52 : ℕ) ≤ ((n : ℚ) / d) / (2 : ℚ) ^ (L - 52) := by
    rw [le_div_iff₀ hpe, ← zpow_natCast, ← zpow_add₀ two]
    have : ((52 : ℕ) : ℤ) + (L - 52) = L := by omega
    rw [this]; exact l1
  have x2 : ((n : ℚ) / d) / (2 : ℚ) ^ (L - 52) < (2 : ℚ) ^ (53 : ℕ) := by
    rw [div_lt_iff₀ hpe, ← zpow_natCast, ← zpow_add₀ two]
    have : ((53 : ℕ) : ℤ) + (L - 52) = L + 1 := by omega
    rw [this]; exact l2
  rw [abs_le] at hr
  have m1 : 2 ^ 52 ≤ m := by
    have : ((2 ^ 52 : ℕ) : ℚ) - 1 < (m : ℚ) := by push_cast; linarith [hr.1]
    have h' : ((2 ^ 52 - 1 : ℕ) : ℚ) < (m : ℚ) := by
      rw [Nat.cast_sub (by norm_num)]; push_cast; push_cast at this; linarith
    have := Nat.cast_lt.mp h'
    omega
  have m2 : m ≤ 2 ^ 53 := by
    have h' : (m : ℚ) < ((2 ^ 53 + 1 : ℕ) : ℚ) := by push_cast; linarith [hr.2]
    have := Nat.cast_lt.mp h'
    omega
  have hm0 : m ≠ 0 := by
    have : 0 < 2 ^ 52 := by norm_num
    omega
  have herr : |(m : ℚ) * (2 : ℚ) ^ (L - 52) - (n : ℚ) / d| ≤ (2 : ℚ) ^ (L - 52) / 2 := by
    have key : (m : ℚ) * (2 : ℚ) ^ (L - 52) - (n : ℚ) / d
        = ((m : ℚ) - ((n : ℚ) / d) / (2 : ℚ) ^ (L - 52)) * (2 : ℚ) ^ (L - 52) := by
      field_simp
      ring
    rw [key, abs_mul, abs_of_pos hpe]
    have : |(m : ℚ) - ((n : ℚ) / d) / (2 : ℚ) ^ (L - 52)| ≤ 1 / 2 := abs_le.mpr hr
    calc _ ≤ 1 / 2 * (2 : ℚ) ^ (L - 52) := mul_le_mul_of_nonneg_right this hpe.le
      _ = _ := by ring
  unfold F64.round
  simp only [if_neg (Nat.pos_iff_ne_zero.mp hn), ← hL, he, ← hm, if_neg hm0]
  by_cases hc : m = 2 ^ 53
  · refine ⟨2 ^ 52, L - 52 + 1, ?_, le_rfl, by norm_num, Or.inr ⟨by omega, rfl⟩, ?_⟩
    · rw [if_pos hc, if_neg (by omega)]
    · have : ((2 ^ 52 : ℕ) : ℚ) * (2 : ℚ) ^ (L - 52 + 1) = (m : ℚ) * (2 : ℚ) ^ (L - 52) := by
        rw [hc, zpow_add₀ two]; push_cast; ring
      rw [this]; exact herr
  · refine ⟨m, L - 52, ?_, m1, by omega, Or.inl rfl, herr⟩
    rw [if_neg hc, if_neg (by omega)]

/-- A fraction that is exactly a binary64 value rounds to that value. -/
theorem round_exact (neg : Bool) (n d M : Nat) (E : Int) (hd : 0 < d)
    (hM1 : 2 ^ 52 ≤ M) (hM2 : M < 2 ^ 53) (hE1 : -1074 ≤ E) (hE2 : E ≤ 971)
    (hx : (n : ℚ) / d = (M : ℚ) * (2 : ℚ) ^ E) :
    F64.round neg n d = .finite neg M E := by
  have two : (2 : ℚ) ≠ 0 := by norm_num
  have hd' : (0 : ℚ) < d := by exact_mod_cast hd
  have hpe : (0 : ℚ) < (2 : ℚ) ^ E := by positivity
  have hMq1 : (2 : ℚ) ^ (52 : ℕ) ≤ (M : ℚ) := by exact_mod_cast hM1
  have hMq2 : (M : ℚ) < (2 : ℚ) ^ (53 : ℕ) := by exact_mod_cast hM2
  have hn : 0 < n := by
    rcases Nat.eq_zero_or_pos n with h | h
    · subst h
      have : (0 : ℚ) < (M : ℚ) * (2 : ℚ) ^ E := by
        have : (0 : ℚ) < (M : ℚ) := lt_of_lt_of_le (by positivity) hMq1
        positivity
      simp at hx
      rcases hx with h1 | h1
      · have h2 : (0 : ℚ) < (M : ℚ) := lt_of_lt_of_le (by positivity) hMq1
        rw [h1] at h2; simp at h2
      · exact absurd h1 (by positivity)
    · exact h
  obtain ⟨l1, l2⟩ := floorLog2_spec n d hn hd
  have hL : floorLog2 n d = E + 52 := by
    apply log2_unique ((n : ℚ) / d) _ _ l1 l2
    · have : E + 52 = E + ((52 : ℕ) : ℤ) := by omega
      rw [hx, this, zpow_add₀ two, mul_comm, zpow_natCast]
      exact mul_le_mul_of_nonneg_right hMq1 hpe.le
    · rw [hx]
      have : E + 52 + 1 = E + ((53 : ℕ) : ℤ) := by omega
      rw [this, zpow_add₀ two, zpow_natCast, mul_comm]
      exact mul_lt_mul_of_pos_left hMq2 hpe
  have hsc : scaleNum n E = M * scaleDen d E := by
    have h := scale_ratio n d E hd
    have hp : (0 : ℚ) < scaleDen d E := by exact_mod_cast scaleDen_pos d E hd
    rw [hx, mul_div_assoc, div_self hpe.ne', mul_one, div_eq_iff hp.ne'] at h
    exact_mod_cast h
  have hM0 : M ≠ 0 := by
    have : 0 < 2 ^ 52 := by norm_num
    omega
  unfold F64.round
  have he : max (E + 52 - 52) (-1074) = E := by omega
  simp only [if_neg (Nat.pos_iff_ne_zero.mp hn), hL, he, hsc,
    rne_exact M _ (scaleDen_pos d E hd), if_neg hM0, if_neg (Nat.ne_of_lt hM2)]
  rw [if_neg (by omega)]

theorem floorLog2_bounds (n d : Nat) (hn : 0 < n) (hd : 0 < d) (a b : ℤ)
    (ha : (2 : ℚ) ^ a ≤ (n : ℚ) / d) (hb : (n : ℚ) / d < (2 : ℚ) ^ b) :
    a ≤ floorLog2 n d ∧ floorLog2 n d < b := by
  obtain ⟨l1, l2⟩ := floorLog2_spec n d hn hd
  have h1 : (2 : ℚ) ^ a < (2 : ℚ) ^ (floorLog2 n d + 1) := lt_of_le_of_lt ha l2
  have h2 : (2 : ℚ) ^ (floorLog2 n d) < (2 : ℚ) ^ b := lt_of_le_of_lt l1 hb
  rw [zpow_lt_zpow_iff_right₀ (by norm_num : (1 : ℚ) < 2)] at h1 h2
  omega

/-- Relative-error form of `round_spec`. -/
theorem round_rel (neg : Bool) (n d : Nat) (hn : 0 < n) (hd : 0 < d)
    (hlo : -1022 ≤ floorLog2 n d) (hhi : floorLog2 n d ≤ 1022) :
    ∃ M E, F64.round neg n d = .finite neg M E ∧ 2 ^ 52 ≤ M ∧ M < 2 ^ 53 ∧
      floorLog2 n d - 52 ≤ E ∧ E ≤ floorLog2 n d - 51 ∧
      |(M : ℚ) * (2 : ℚ) ^ E - (n : ℚ) / d| ≤ ((n : ℚ) / d) / 2 ^ 53 := by
  obtain ⟨M, E, h1, h2, h3, h4, h5⟩ := round_spec neg n d hn hd hlo hhi
  obtain ⟨l1, _⟩ := floorLog2_spec n d hn hd
  refine ⟨M, E, h1, h2, h3, by omega, by omega, le_trans h5 ?_⟩
  have two : (2 : ℚ) ≠ 0 := by norm_num
  have : (2 : ℚ) ^ (floorLog2 n d - 52) / 2 = (2 : ℚ) ^ (floorLog2 n d) / 2 ^ 53 := by
    rw [zpow_sub₀ two]
    norm_num
    ring
  rw [this]
  exact div_le_div_of_nonneg_right l1 (by positivity)

/-- Integers below `2^53` are binary64 values. -/
theorem round_nat_small (neg : Bool) (m : Nat) (h0 : 0 < m) (h : m < 2 ^ 53) :
    ∃ M E, F64.round neg m 1 = .finite neg M E ∧ 2 ^ 52 ≤ M ∧ M < 2 ^ 53 ∧
      -52 ≤ E ∧ E ≤ 0 ∧ (M : ℚ) * (2 : ℚ) ^ E = m := by
  obtain ⟨b1, b2, b3⟩ := bits_spec m h0
  have hb : bits m ≤ 53 := by
    by_contra hc
    have : 2 ^ 53 ≤ 2 ^ (bits m - 1) := Nat.pow_le_pow_right (by norm_num) (by omega)
    omega
  have two : (2 : ℚ) ≠ 0 := by norm_num
  have e1 : m * 2 ^ (53 - bits m) < 2 ^ 53 := by
    calc m * 2 ^ (53 - bits m) < 2 ^ bits m * 2 ^ (53 - bits m) :=
          Nat.mul_lt_mul_of_pos_right b2 (by positivity)
      _ = 2 ^ 53 := by rw [← pow_add]; congr 1; omega
  have e2 : 2 ^ 52 ≤ m * 2 ^ (53 - bits m) := by
    calc 2 ^ 52 = 2 ^ (bits m - 1) * 2 ^ (53 - bits m) := by rw [← pow_add]; congr 1; omega
      _ ≤ m * 2 ^ (53 - bits m) := Nat.mul_le_mul_right _ b1
  have hv : ((m * 2 ^ (53 - bits m) : ℕ) : ℚ) * (2 : ℚ) ^ ((bits m : ℤ) - 53) = m := by
    have : ((bits m : ℤ) - 53) = -((53 - bits m : ℕ) : ℤ) := by omega
    rw [this, zpow_neg, zpow_natCast]
    push_cast
    field_simp
  refine ⟨m * 2 ^ (53 - bits m), (bits m : ℤ) - 53, ?_, e2, e1, by omega, by omega, hv⟩
  apply round_exact neg m 1 _ _ (by norm_num) e2 e1 (by omega) (by omega)
  rw [hv]; simp

/-- The conversion `float64(m)` of a magnitude below `2^63 - 512`: the result is an integer
`t` below `2^63`, equal to `m` when `m < 2^53`, and within relative error `2^-53` of `m`. -/
theorem round_nat (neg : Bool) (m : Nat) (h0 : 0 < m) (h : m < 2 ^ 63 - 512) :
    ∃ (M : Nat) (E : Int) (t : Nat), F64.round neg m 1 = .finite neg M E ∧
      2 ^ 52 ≤ M ∧ M < 2 ^ 53 ∧ -52 ≤ E ∧ E ≤ 10 ∧ (M : ℚ) * (2 : ℚ) ^ E = t ∧
      t < 2 ^ 63 ∧ (m < 2 ^ 53 → t = m) ∧ (2 ^ 53 ≤ m → 2 ^ 53 ≤ t) ∧
      |(t : ℚ) - m| ≤ (m : ℚ) / 2 ^ 53 := by
  by_cases hs : m < 2 ^ 53
  · obtain ⟨M, E, h1, h2, h3, h4, h5, h6⟩ := round_nat_small neg m h0 hs
    refine ⟨M, E, m, h1, h2, h3, h4, by omega, h6, by omega, fun _ => rfl, fun hc => by omega, ?_⟩
    simp only [sub_self, abs_zero]
    positivity
  · have hs' : 2 ^ 53 ≤ m := by omega
    have hmq1 : (2 : ℚ) ^ (53 : ℤ) ≤ (m : ℚ) / (1 : ℕ) := by
      have : ((2 ^ 53 : ℕ) : ℚ) ≤ (m : ℚ) := Nat.cast_le.mpr hs'
      norm_num at this ⊢
      exact this
    have hmq2 : (m : ℚ) / (1 : ℕ) < (2 : ℚ) ^ (63 : ℤ) := by
      have : (m : ℚ) < ((2 ^ 63 : ℕ) : ℚ) := Nat.cast_lt.mpr (by omega)
      norm_num at this ⊢
      exact this
    obtain ⟨L1, L2⟩ := floorLog2_bounds m 1 h0 (by norm_num) 53 63 hmq1 hmq2
    obtain ⟨M, E, r1, r2, r3, r4, r5⟩ := round_spec neg m 1 h0 (by norm_num) (by omega) (by omega)
    obtain ⟨M', E', q1, _, _, _, _, q6⟩ := round_rel neg m 1 h0 (by norm_num) (by omega) (by omega)
    rw [r1] at q1
    injection q1 with _ qM qE
    subst qM qE
    have hE1 : 1 ≤ E := by omega
    have hEn : E = ((E.toNat : ℕ) : ℤ) := by omega
    have hv : (M : ℚ) * (2 : ℚ) ^ E = ((M * 2 ^ E.toNat : ℕ) : ℚ) := by
      conv_lhs => rw [hEn]
      rw [zpow_natCast]; push_cast; ring
    have hE11 : E ≤ 10 := by
      by_contra hc
      have hE : E = 11 := by omega
      have hL : floorLog2 m 1 = 62 := by omega
      have hM : M = 2 ^ 52 := by
        rcases r4 with h' | ⟨_, h'⟩
        · omega
        · exact h'
      rw [hE, hL, hM] at r5
      norm_num at r5
      rw [abs_le] at r5
      have h1 : (9223372036854775808 : ℚ) - 512 ≤ (m : ℚ) := by linarith [r5.2]
      have h2 : ((9223372036854775808 - 512 : ℕ) : ℚ) ≤ (m : ℚ) := by
        rw [Nat.cast_sub (by norm_num)]; push_cast; linarith
      have := Nat.cast_le.mp h2
      omega
    have hpow : 2 ^ E.toNat ≤ 2 ^ 10 := Nat.pow_le_pow_right (by norm_num) (by omega)
    have hpow1 : 2 ^ 1 ≤ 2 ^ E.toNat := Nat.pow_le_pow_right (by norm_num) (by omega)
    refine ⟨M, E, M * 2 ^ E.toNat, r1, r2, r3, by omega, hE11, hv, ?_, fun hc => by omega,
      fun _ => ?_, ?_⟩
    · calc M * 2 ^ E.toNat ≤ (2 ^ 53 - 1) * 2 ^ 10 := Nat.mul_le_mul (by omega) hpow
        _ < 2 ^ 63 := by norm_num
    · calc 2 ^ 53 = 2 ^ 52 * 2 ^ 1 := by norm_num
        _ ≤ M * 2 ^ E.toNat := Nat.mul_le_mul r2 hpow1
    · rw [← hv]
      simpa using q6

/-- Truncation of a binary64 value that is a natural number below `2^63`. -/
theorem toInt64_nat (conv : F64 → Int) (M : Nat) (E : Int) (t : Nat)
    (hv : (M : ℚ) * (2 : ℚ) ^ E = t) (ht : t < 2 ^ 63) :
    F64.toInt64 conv (.finite false M E) = (t : Int) := by
  have h := scale_ratio M 1 (-E) (by norm_num)
  have hp := scaleDen_pos 1 (-E) (by norm_num)
  have hp' : (0 : ℚ) < scaleDen 1 (-E) := by exact_mod_cast hp
  rw [zpow_neg, Nat.cast_one, div_one, div_inv_eq_mul, hv, div_eq_iff hp'.ne'] at h
  have h' : scaleNum M (-E) = t * scaleDen 1 (-E) := by exact_mod_cast h
  unfold F64.toInt64
  simp only [h', Nat.mul_div_cancel _ hp, Bool.false_eq_true, if_false]
  rw [if_pos]
  constructor <;> omega

/-- Converting back an integer that is a binary64 value gives that value. -/
theorem ofInt_nat (M : Nat) (E : Int) (t : Nat) (hM1 : 2 ^ 52 ≤ M) (hM2 : M < 2 ^ 53)
    (hE1 : -1074 ≤ E) (hE2 : E ≤ 971) (hv : (M : ℚ) * (2 : ℚ) ^ E = t) :
    F64.ofInt (t : Int) = .finite false M E := by
  unfold F64.ofInt
  have : decide ((t : Int) < 0) = false := by simp
  rw [this, Int.natAbs_ofNat]
  apply round_exact false t 1 M E (by norm_num) hM1 hM2 hE1 hE2
  rw [hv]; simp

theorem abs_round (neg : Bool) (n d : Nat) :
    F64.abs (F64.round neg n d) = F64.round false n d := by
  unfold F64.round
  simp only
  split_ifs <;> rfl

/-- The float64 quotient of two positive finite values, when the exact quotient lies in
`[2^a, 2^b)` inside the normal range: correctly rounded, relative error at most `2^-53`. -/
theorem div_rel (s s' : Bool) (M M' : Nat) (E E' : Int) (hM : 0 < M) (hM' : 0 < M')
    (a b : ℤ) (ha : -1022 ≤ a) (hb : b ≤ 1023)
    (h1 : (2 : ℚ) ^ a ≤ ((M : ℚ) * (2 : ℚ) ^ E) / ((M' : ℚ) * (2 : ℚ) ^ E'))
    (h2 : ((M : ℚ) * (2 : ℚ) ^ E) / ((M' : ℚ) * (2 : ℚ) ^ E') < (2 : ℚ) ^ b) :
    ∃ M2 E2, F64.div (.finite s M E) (.finite s' M' E') = .finite (xor s s') M2 E2 ∧
      2 ^ 52 ≤ M2 ∧ M2 < 2 ^ 53 ∧ a - 52 ≤ E2 ∧ E2 ≤ b - 52 ∧
      |(M2 : ℚ) * (2 : ℚ) ^ E2 - ((M : ℚ) * (2 : ℚ) ^ E) / ((M' : ℚ) * (2 : ℚ) ^ E')|
        ≤ (((M : ℚ) * (2 : ℚ) ^ E) / ((M' : ℚ) * (2 : ℚ) ^ E')) / 2 ^ 53 := by
  have two : (2 : ℚ) ≠ 0 := by norm_num
  have hp : 0 < scaleDen M' (E' - E) := scaleDen_pos M' _ hM'
  have hM'q : (M' : ℚ) ≠ 0 := by positivity
  have hr : (scaleNum M (E' - E) : ℚ) / (scaleDen M' (E' - E) : ℚ)
      = ((M : ℚ) * (2 : ℚ) ^ E) / ((M' : ℚ) * (2 : ℚ) ^ E') := by
    rw [scale_ratio M M' (E' - E) hM', zpow_sub₀ two]
    field_simp
  have hn : 0 < scaleNum M (E' - E) := by
    unfold scaleNum; split_ifs <;> positivity
  rw [← hr] at h1 h2 ⊢
  obtain ⟨L1, L2⟩ := floorLog2_bounds _ _ hn hp a b h1 h2
  obtain ⟨M2, E2, r1, r2, r3, r4, r5, r6⟩ :=
    round_rel (xor s s') _ _ hn hp (by omega) (by omega)
  refine ⟨M2, E2, ?_, r2, r3, by omega, by omega, r6⟩
  unfold F64.div
  simp only [if_neg (Nat.pos_iff_ne_zero.mp hM')]
  exact r1

/-- The float64 product of two positive finite values, when the exact product lies in
`[2^a, 2^b)` inside the normal range. -/
theorem mul_rel (s s' : Bool) (M M' : Nat) (E E' : Int) (hM : 0 < M) (hM' : 0 < M')
    (a b : ℤ) (ha : -1022 ≤ a) (hb : b ≤ 1023)
    (h1 : (2 : ℚ) ^ a ≤ ((M : ℚ) * (2 : ℚ) ^ E) * ((M' : ℚ) * (2 : ℚ) ^ E'))
    (h2 : ((M : ℚ) * (2 : ℚ) ^ E) * ((M' : ℚ) * (2 : ℚ) ^ E') < (2 : ℚ) ^ b) :
    ∃ M2 E2, F64.mul (.finite s M E) (.finite s' M' E') = .finite (xor s s') M2 E2 ∧
      2 ^ 52 ≤ M2 ∧ M2 < 2 ^ 53 ∧ a - 52 ≤ E2 ∧ E2 ≤ b - 52 ∧
      |(M2 : ℚ) * (2 : ℚ) ^ E2 - ((M : ℚ) * (2 : ℚ) ^ E) * ((M' : ℚ) * (2 : ℚ) ^ E')|
        ≤ (((M : ℚ) * (2 : ℚ) ^ E) * ((M' : ℚ) * (2 : ℚ) ^ E')) / 2 ^ 53 := by
  have two : (2 : ℚ) ≠ 0 := by norm_num
  have hp : 0 < scaleDen 1 (-(E + E')) := scaleDen_pos 1 _ (by norm_num)
  have hr : (scaleNum (M * M') (-(E + E')) : ℚ) / (scaleDen 1 (-(E + E')) : ℚ)
      = ((M : ℚ) * (2 : ℚ) ^ E) * ((M' : ℚ) * (2 : ℚ) ^ E') := by
    rw [scale_ratio (M * M') 1 (-(E + E')) (by norm_num), zpow_neg, zpow_add₀ two]
    push_cast
    field_simp
    ring
  have hn : 0 < scaleNum (M * M') (-(E + E')) := by
    unfold scaleNum; split_ifs <;> positivity
  rw [← hr] at h1 h2 ⊢
  obtain ⟨L1, L2⟩ := floorLog2_bounds _ _ hn hp a b h1 h2
  obtain ⟨M2, E2, r1, r2, r3, r4, r5, r6⟩ :=
    round_rel (xor s s') _ _ hn hp (by omega) (by omega)
  refine ⟨M2, E2, ?_, r2, r3, by omega, by omega, r6⟩
  unfold F64.mul
  exact r1

/-- The hundredths printed by `%.2f` are within one half of a hundred times the value. -/
theorem hundredths_spec (M : Nat) (E : Int) :
    |(hundredths M E : ℚ) - 100 * ((M : ℚ) * (2 : ℚ) ^ E)| ≤ 1 / 2 := by
  have h := rne_scale (M * 100) 1 (-E) (by norm_num)
  have e : ((M * 100 : ℕ) : ℚ) / ((1 : ℕ) : ℚ) / (2 : ℚ) ^ (-E) = 100 * ((M : ℚ) * (2 : ℚ) ^ E) := by
    rw [zpow_neg]; push_cast; field_simp; ring
  rw [e] at h
  exact h

theorem ofInt_hundred : F64.ofInt 100 = .finite false 7036874417766400 (-46) := by decide

theorem fmtInt_nat (t : Nat) : fmtInt (t : Int) = toString t := by
  unfold fmtInt
  rw [if_neg (by omega), Int.natAbs_ofNat]

/-- The value of a unit constant `K = M' * 2^E'` and of a magnitude `t = M * 2^E ≥ K`:
the float64 quotient is finite and positive, with relative error at most `2^-53`. -/
theorem div_unit (M : Nat) (E : Int) (t : Nat) (M' : Nat) (E' : Int) (K : Nat)
    (hM : 2 ^ 52 ≤ M) (hv : (M : ℚ) * (2 : ℚ) ^ E = t) (ht : t < 2 ^ 63)
    (hM' : 0 < M') (hK : (M' : ℚ) * (2 : ℚ) ^ E' = K) (hK0 : 0 < K) (hKt : K ≤ t) :
    ∃ M2 E2, F64.div (.finite false M E) (.finite false M' E') = .finite false M2 E2 ∧
      |(M2 : ℚ) * (2 : ℚ) ^ E2 - (t : ℚ) / K| ≤ ((t : ℚ) / K) / 2 ^ 53 := by
  have hKq : (0 : ℚ) < K := by exact_mod_cast hK0
  have h1 : (2 : ℚ) ^ (0 : ℤ) ≤ ((M : ℚ) * (2 : ℚ) ^ E) / ((M' : ℚ) * (2 : ℚ) ^ E') := by
    rw [hv, hK, zpow_zero, le_div_iff₀ hKq, one_mul]
    exact_mod_cast hKt
  have h2 : ((M : ℚ) * (2 : ℚ) ^ E) / ((M' : ℚ) * (2 : ℚ) ^ E') < (2 : ℚ) ^ (63 : ℤ) := by
    rw [hv, hK, div_lt_iff₀ hKq]
    have a1 : (t : ℚ) < ((2 ^ 63 : ℕ) : ℚ) := Nat.cast_lt.mpr ht
    have a2 : (1 : ℚ) ≤ K := by exact_mod_cast hK0
    have a3 : (0 : ℚ) < (2 : ℚ) ^ (63 : ℤ) := by positivity
    have a4 : ((2 ^ 63 : ℕ) : ℚ) = (2 : ℚ) ^ (63 : ℤ) := by norm_num
    rw [a4] at a1
    nlinarith
  obtain ⟨M2, E2, r1, _, _, _, _, r6⟩ :=
    div_rel false false M M' E E' (by have : 0 < 2 ^ 52 := by norm_num
                                      omega) hM' 0 63 (by norm_num) (by norm_num) h1 h2
  rw [hv, hK] at r6
  exact ⟨M2, E2, by simpa using r1, r6⟩

theorem near_of_bounds (q m t c : Nat) (V : ℚ) (h1 : |(q : ℚ) * c - V| ≤ (c : ℚ) / 2)
    (h2 : |V - (t : ℚ)| ≤ (t : ℚ) / 2 ^ 53) (h3 : |(t : ℚ) - m| ≤ (m : ℚ) / 2 ^ 53)
    (hm : m < 2 ^ 63) :
    2 * (q * c) ≤ 2 * m + c + 4096 ∧ 2 * m ≤ 2 * (q * c) + c + 4096 := by
  rw [abs_le] at h1 h2 h3
  have hm' : (m : ℚ) ≤ 2 ^ 63 := by
    have : m ≤ 2 ^ 63 := by omega
    exact_mod_cast this
  have hm0 : (0 : ℚ) ≤ m := by positivity
  have hmu : (m : ℚ) / 2 ^ 53 ≤ 1024 := by
    rw [div_le_iff₀ (by positivity)]; norm_num at hm' ⊢; linarith
  have ht : (t : ℚ) ≤ 2 ^ 63 + 1024 := by linarith [h3.2]
  have htu : (t : ℚ) / 2 ^ 53 ≤ 1024 + 1 / 4 := by
    rw [div_le_iff₀ (by positivity)]; norm_num at ht ⊢; linarith
  constructor
  · have : ((2 * (q * c) : ℕ) : ℚ) < ((2 * m + c + 4097 : ℕ) : ℚ) := by
      push_cast; linarith [h1.1, h1.2, h2.1, h2.2, h3.1, h3.2]
    have := Nat.cast_lt.mp this
    omega
  · have : ((2 * m : ℕ) : ℚ) < ((2 * (q * c) + c + 4097 : ℕ) : ℚ) := by
      push_cast; linarith [h1.1, h1.2, h2.1, h2.2, h3.1, h3.2]
    have := Nat.cast_lt.mp this
    omega

theorem near_exact (q m c : Nat) (V : ℚ) (h1 : |(q : ℚ) * c - V| ≤ (c : ℚ) / 2)
    (h2 : |V - (m : ℚ)| ≤ (m : ℚ) / 2 ^ 53) (hm : m < 2 ^ 53) (hc : 2 ∣ c) :
    2 * (q * c) ≤ 2 * m + c ∧ 2 * m ≤ 2 * (q * c) + c := by
  rw [abs_le] at h1 h2
  have hm' : (m : ℚ) < 2 ^ 53 := by exact_mod_cast hm
  have hmu : (m : ℚ) / 2 ^ 53 < 1 := by
    rw [div_lt_iff₀ (by positivity)]; linarith
  obtain ⟨k, rfl⟩ := hc
  constructor
  · have : ((2 * (q * (2 * k)) : ℕ) : ℚ) < ((2 * m + 2 * k + 2 : ℕ) : ℚ) := by
      push_cast; push_cast at h1; linarith [h1.1, h1.2, h2.1, h2.2]
    have := Nat.cast_lt.mp this
    have e : q * (2 * k) = 2 * (q * k) := by ring
    rw [e] at this ⊢
    omega
  · have : ((2 * m : ℕ) : ℚ) < ((2 * (q * (2 * k)) + 2 * k + 2 : ℕ) : ℚ) := by
      push_cast; push_cast at h1; linarith [h1.1, h1.2, h2.1, h2.2]
    have := Nat.cast_lt.mp this
    have e : q * (2 * k) = 2 * (q * k) := by ring
    rw [e] at this ⊢
    omega

/-- From the value bounds of the quotient to bounds on hundredths times bytes. -/
theorem scaled_bounds (q t c : Nat) (v : ℚ) (hc : 0 < c)
    (hq : |(q : ℚ) - 100 * v| ≤ 1 / 2)
    (hv : |v - (t : ℚ) / ((100 * c : ℕ) : ℚ)| ≤ ((t : ℚ) / ((100 * c : ℕ) : ℚ)) / 2 ^ 53) :
    |(q : ℚ) * c - 100 * c * v| ≤ (c : ℚ) / 2 ∧ |100 * c * v - (t : ℚ)| ≤ (t : ℚ) / 2 ^ 53 := by
  have hcq : (0 : ℚ) < c := by exact_mod_cast hc
  constructor
  · have : (q : ℚ) * c - 100 * c * v = ((q : ℚ) - 100 * v) * c := by ring
    rw [this, abs_mul, abs_of_pos hcq]
    calc _ ≤ 1 / 2 * (c : ℚ) := mul_le_mul_of_nonneg_right hq hcq.le
      _ = _ := by ring
  · have e : 100 * (c : ℚ) * v - t = (v - (t : ℚ) / ((100 * c : ℕ) : ℚ)) * (100 * c) := by
      push_cast; field_simp; ring
    rw [e, abs_mul, abs_of_pos (by positivity : (0 : ℚ) < 100 * c)]
    calc _ ≤ ((t : ℚ) / ((100 * c : ℕ) : ℚ)) / 2 ^ 53 * (100 * c) :=
          mul_le_mul_of_nonneg_right hv (by positivity)
      _ = _ := by push_cast; field_simp; ring

theorem ofInt_natCast (m : Nat) : F64.ofInt (m : Int) = F64.round false m 1 := by
  unfold F64.ofInt
  have : decide ((m : Int) < 0) = false := by simp
  rw [this, Int.natAbs_ofNat]

/-- The magnitude that `byte2unit` works with: `int64(math.Abs(float64(size)))`. -/
theorem magnitude_core (conv : F64 → Int) (m : Nat) (hm : m < 2 ^ 63 - 512) :
    ∃ t : Nat, F64.toInt64 conv (F64.round false m 1) = (t : Int) ∧
      F64.ofInt (t : Int) = F64.ofInt (m : Int) ∧ t < 2 ^ 63 ∧
      (m < 2 ^ 53 → t = m) ∧ (2 ^ 53 ≤ m → 2 ^ 53 ≤ t) ∧
      |(t : ℚ) - m| ≤ (m : ℚ) / 2 ^ 53 := by
  rcases Nat.eq_zero_or_pos m with h0 | h0
  · subst h0
    refine ⟨0, ?_, rfl, by norm_num, fun _ => rfl, fun h => by norm_num at h, by simp⟩
    simp [F64.round, F64.toInt64, scaleNum, scaleDen, isInt64]
  · obtain ⟨M, E, t, r1, r2, r3, r4, r5, r6, r7, r8, r9, r10⟩ := round_nat false m h0 hm
    refine ⟨t, ?_, ?_, r7, r8, r9, r10⟩
    · rw [r1]; exact toInt64_nat conv M E t r6 r7
    · rw [ofInt_natCast m, r1]
      exact ofInt_nat M E t r2 r3 (by omega) (by omega) r6

/-- The quotient `float64(m) / K` printed with `%.2f`, for a unit `K = 100 * c`. -/
theorem quotient_spec (m K c : Nat) (hK : K = 100 * c) (hc : 0 < c) (hKm : K ≤ m)
    (hK53 : K < 2 ^ 53) (hm : m < 2 ^ 63 - 512) :
    ∃ M2 E2, F64.div (F64.ofInt (m : Int)) (F64.ofInt (K : Int)) = .finite false M2 E2 ∧
      (2 * (hundredths M2 E2 * c) ≤ 2 * m + c + 4096 ∧
        2 * m ≤ 2 * (hundredths M2 E2 * c) + c + 4096) ∧
      (m < 2 ^ 53 → 2 ∣ c → 2 * (hundredths M2 E2 * c) ≤ 2 * m + c ∧
        2 * m ≤ 2 * (hundredths M2 E2 * c) + c) := by
  have hK0 : 0 < K := by omega
  have hm0 : 0 < m := by omega
  obtain ⟨M, E, t, r1, r2, r3, r4, r5, r6, r7, r8, r9, r10⟩ := round_nat false m hm0 hm
  obtain ⟨M', E', k1, k2, k3, k4, k5, k6⟩ := round_nat_small false K hK0 hK53
  have hKt : K ≤ t := by
    by_cases h : m < 2 ^ 53
    · rw [r8 h]; exact hKm
    · have := r9 (by omega); omega
  obtain ⟨M2, E2, d1, d2⟩ := div_unit M E t M' E' K r2 r6 r7
    (by have : 0 < 2 ^ 52 := by norm_num
        omega) k6 hK0 hKt
  refine ⟨M2, E2, ?_, ?_, ?_⟩
  · rw [ofInt_natCast, ofInt_natCast, r1, k1]; exact d1
  · have hs := hundredths_spec M2 E2
    subst hK
    obtain ⟨s1, s2⟩ := scaled_bounds (hundredths M2 E2) t c _ hc hs d2
    exact near_of_bounds _ m t c _ s1 s2 r10 (by omega)
  · intro h53 hc2
    have hs := hundredths_spec M2 E2
    subst hK
    obtain ⟨s1, s2⟩ := scaled_bounds (hundredths M2 E2) t c _ hc hs d2
    rw [r8 h53] at s2
    exact near_exact _ m c _ s1 s2 h53 hc2

theorem centi_cases (m : Nat) (h : 1000 ≤ m) :
    0 < centi m ∧ 2 ∣ centi m ∧ 100 * centi m ≤ m ∧ 100 * centi m < 2 ^ 53 := by
  unfold centi
  split_ifs with h1 h2
  · refine ⟨by norm_num, by norm_num, by omega, by norm_num⟩
  · refine ⟨by norm_num, by norm_num, by omega, by norm_num⟩
  · refine ⟨by norm_num, by norm_num, by omega, by norm_num⟩

/-- What is printed for a magnitude of at least 1000: the text of `printedHundredths`,
which is within half a hundredth plus 2048 bytes of the magnitude, and within half a
hundredth when the magnitude is below `2^53`. -/
theorem printed_spec (m : Nat) (h : 1000 ≤ m) (hm : m < 2 ^ 63 - 512) :
    fmt2 (F64.div (F64.ofInt (m : Int)) (F64.ofInt ((100 * centi m : Nat) : Int)))
        = dec2 (printedHundredths m) ∧
      (2 * (printedHundredths m * centi m) ≤ 2 * m + centi m + 4096 ∧
        2 * m ≤ 2 * (printedHundredths m * centi m) + centi m + 4096) ∧
      (m < 2 ^ 53 → 2 * (printedHundredths m * centi m) ≤ 2 * m + centi m ∧
        2 * m ≤ 2 * (printedHundredths m * centi m) + centi m) := by
  obtain ⟨c1, c2, c3, c4⟩ := centi_cases m h
  obtain ⟨M2, E2, q1, q2, q3⟩ := quotient_spec m (100 * centi m) (centi m) rfl c1 c3 c4 hm
  have hp : printedHundredths m = hundredths M2 E2 := by
    unfold printedHundredths; rw [q1]
  rw [hp, q1]
  exact ⟨by simp [fmt2], q2, fun h53 => q3 h53 c2⟩

/-- The text of `byte2unit` in terms of the true magnitude of its argument. -/
theorem byte2unit_eq (conv : F64 → Int) (size : Int) (hm : size.natAbs < 2 ^ 63 - 512) :
    byte2unit conv size =
      if size < 0 then "-" ++ magnitudeText size.natAbs else magnitudeText size.natAbs := by
  obtain ⟨t, t1, t2, t3, t4, t5, _⟩ := magnitude_core conv size.natAbs hm
  have hbody : (if 1000000000 ≤ (t : Int) then
        fmt2 (F64.div (F64.ofInt (t : Int)) (F64.ofInt 1000000000)) ++ " GB"
      else if 1000000 ≤ (t : Int) then
        fmt2 (F64.div (F64.ofInt (t : Int)) (F64.ofInt 1000000)) ++ " MB"
      else if 1000 ≤ (t : Int) then
        fmt2 (F64.div (F64.ofInt (t : Int)) (F64.ofInt 1000)) ++ " kB"
      else fmtInt (t : Int) ++ " Byte") = magnitudeText size.natAbs := by
    clear t1
    generalize size.natAbs = m at *
    have hthr : ∀ K : Nat, K < 2 ^ 53 → ((K : Int) ≤ (t : Int) ↔ K ≤ m) := by
      intro K hK
      rw [Int.ofNat_le]
      by_cases h : m < 2 ^ 53
      · rw [t4 h]
      · have := t5 (by omega); omega
    have h9 : (1000000000 : Int) ≤ (t : Int) ↔ 1000000000 ≤ m := hthr 1000000000 (by norm_num)
    have h6 : (1000000 : Int) ≤ (t : Int) ↔ 1000000 ≤ m := hthr 1000000 (by norm_num)
    have h3 : (1000 : Int) ≤ (t : Int) ↔ 1000 ≤ m := hthr 1000 (by norm_num)
    rw [t2]
    unfold magnitudeText
    by_cases c3 : 1000 ≤ m
    · obtain ⟨p1, _, _⟩ := printed_spec m c3 hm
      rw [if_neg (not_lt.mpr c3), ← p1]
      by_cases c9 : 1000000000 ≤ m
      · have e9 : ((100 * centi m : ℕ) : ℤ) = 1000000000 := by simp [centi, c9]
        have u : unitName m = " GB" := by simp [unitName, c9]
        rw [if_pos (h9.mpr c9), e9, u]
      · have n9 : ¬ (1000000000 : Int) ≤ (t : Int) := fun h => c9 (h9.mp h)
        rw [if_neg n9]
        by_cases c6 : 1000000 ≤ m
        · have e6 : ((100 * centi m : ℕ) : ℤ) = 1000000 := by simp [centi, c9, c6]
          have u : unitName m = " MB" := by simp [unitName, c9, c6]
          rw [if_pos (h6.mpr c6), e6, u]
        · have n6 : ¬ (1000000 : Int) ≤ (t : Int) := fun h => c6 (h6.mp h)
          have e3 : ((100 * centi m : ℕ) : ℤ) = 1000 := by simp [centi, c9, c6]
          have u : unitName m = " kB" := by simp [unitName, c9, c6]
          rw [if_neg n6, if_pos (h3.mpr c3), e3, u]
    · have hs : m < 2 ^ 53 := by omega
      have n9 : ¬ (1000000000 : Int) ≤ (t : Int) := fun h => c3 (by have := h9.mp h; omega)
      have n6 : ¬ (1000000 : Int) ≤ (t : Int) := fun h => c3 (by have := h6.mp h; omega)
      have n3 : ¬ (1000 : Int) ≤ (t : Int) := fun h => c3 (h3.mp h)
      rw [if_neg n9, if_neg n6, if_neg n3, if_pos (not_le.mp c3), fmtInt_nat, t4 hs]
  unfold byte2unit
  simp only [F64.ofInt, abs_round]
  simp only [F64.ofInt] at hbody t1
  rw [t1, hbody]
  by_cases hneg : size < 0 <;> simp [hneg]

theorem digitChar_ne_minus (k : Nat) (hk : k < 10) : Nat.digitChar k ≠ '-' := by
  interval_cases k <;> decide

theorem toDigitsCore_head : ∀ (fuel n : Nat) (ds : List Char),
    ∃ c cs, Nat.toDigitsCore 10 (fuel + 1) n ds = c :: cs ∧ c ≠ '-'
  | 0, n, ds => by
    unfold Nat.toDigitsCore
    simp only
    split_ifs with h
    · exact ⟨_, _, rfl, digitChar_ne_minus _ (Nat.mod_lt _ (by norm_num))⟩
    · exact ⟨_, _, rfl, digitChar_ne_minus _ (Nat.mod_lt _ (by norm_num))⟩
  | fuel + 1, n, ds => by
    unfold Nat.toDigitsCore
    simp only
    split_ifs with h
    · exact ⟨_, _, rfl, digitChar_ne_minus _ (Nat.mod_lt _ (by norm_num))⟩
    · exact toDigitsCore_head fuel (n / 10) _

/-- The decimal text of a natural number starts with a digit, not with a minus sign. -/
theorem toString_nat_head (n : Nat) (s : String) :
    ∃ c cs, (toString n ++ s).data = c :: cs ∧ c ≠ '-' := by
  obtain ⟨c, cs, h, hc⟩ := toDigitsCore_head n n []
  refine ⟨c, cs ++ s.data, ?_, hc⟩
  have : (toString n).data = c :: cs := h
  rw [String.data_append, this]
  rfl

theorem magnitudeText_head (m : Nat) : (magnitudeText m).data.head? ≠ some '-' := by
  unfold magnitudeText
  split_ifs with h
  · obtain ⟨c, cs, h1, h2⟩ := toString_nat_head m " Byte"
    rw [h1]; simpa using h2
  · unfold dec2
    obtain ⟨c, cs, h1, h2⟩ := toString_nat_head (printedHundredths m / 100)
      ("." ++ pad2 (printedHundredths m % 100) ++ unitName m)
    have e : toString (printedHundredths m / 100) ++ "." ++ pad2 (printedHundredths m % 100) ++
        unitName m = toString (printedHundredths m / 100) ++
          ("." ++ pad2 (printedHundredths m % 100) ++ unitName m) := by
      simp [String.append_assoc]
    rw [e, h1]; simpa using h2

/-- C1 (counterexample). The quotient is rounded in binary64 before it is printed: 1015
bytes (1.015 kB) are printed as "1.01 kB" and 1145 bytes (1.145 kB) as "1.15 kB", so the
ties of the exact quotient go down in one case and up in the other, and 1015 differs from
the exact quotient rounded half to even; at 9007199254999999 bytes (9007199.254999999 GB,
no tie) the code prints "9007199.26 GB" where the exact quotient rounds to "9007199.25 GB".
With the amd64 conversion `byte2unit(2^63 - 1)` starts with "-" and `byte2unit(-2^63)` with
"--". -/
theorem byte2unit_counterexample :
    byte2unit convAmd64 1015 = "1.01 kB" ∧ byte2unitSpec 1015 = "1.02 kB" ∧
      byte2unit convAmd64 1145 = "1.15 kB" ∧
      byte2unit convAmd64 9007199254999999 = "9007199.26 GB" ∧
      byte2unitSpec 9007199254999999 = "9007199.25 GB" ∧
      byte2unit convAmd64 (2 ^ 63 - 1) = "-9223372036854775808 Byte" ∧
      byte2unit convAmd64 (-(2 ^ 63)) = "--9223372036854775808 Byte" := by
  decide

/-- C1 (amended). For `|size| < 2^63 - 512`, whatever the platform does on out-of-range
conversions: `byte2unit size` is the text of the magnitude `m = |size|`, prefixed with "-"
exactly when `size < 0`; `byte2unit (-size) = "-" ++ byte2unit size` for positive sizes; the
magnitude text is the decimal `m` and " Byte" below 1000, and otherwise `q` hundredths of
the unit chosen by the thresholds `10^9`, `10^6`, `10^3`, where `q` is the result of the
binary64 division: within half a hundredth plus 2048 bytes of `m`, and a nearest hundredth
when `m < 2^53`.  The three examples of the specification hold. -/
theorem byte2unit_amended (conv : F64 → Int) (size : Int)
    (hlo : -(2 ^ 63 - 512) < size) (hhi : size < 2 ^ 63 - 512) :
    (byte2unit conv size =
        if size < 0 then "-" ++ magnitudeText size.natAbs else magnitudeText size.natAbs) ∧
      ((byte2unit conv size).data.head? = some '-' ↔ size < 0) ∧
      (0 < size → byte2unit conv (-size) = "-" ++ byte2unit conv size) ∧
      (size.natAbs < 1000 → magnitudeText size.natAbs = toString size.natAbs ++ " Byte") ∧
      (1000 ≤ size.natAbs →
        magnitudeText size.natAbs =
          dec2 (printedHundredths size.natAbs) ++ unitName size.natAbs ∧
        2 * (printedHundredths size.natAbs * centi size.natAbs)
          ≤ 2 * size.natAbs + centi size.natAbs + 4096 ∧
        2 * size.natAbs
          ≤ 2 * (printedHundredths size.natAbs * centi size.natAbs) + centi size.natAbs + 4096 ∧
        (size.natAbs < 2 ^ 53 →
          2 * (printedHundredths size.natAbs * centi size.natAbs)
            ≤ 2 * size.natAbs + centi size.natAbs ∧
          2 * size.natAbs
            ≤ 2 * (printedHundredths size.natAbs * centi size.natAbs) + centi size.natAbs)) ∧
      (byte2unit conv 0 = "0 Byte" ∧ byte2unit conv 1500 = "1.50 kB" ∧
        byte2unit conv (-2500000) = "-2.50 MB") := by
  have hm : size.natAbs < 2 ^ 63 - 512 := by omega
  have heq := byte2unit_eq conv size hm
  refine ⟨heq, ?_, ?_, ?_, ?_, ?_⟩
  · rw [heq]
    by_cases hneg : size < 0
    · simp only [hneg, if_true, iff_true]
      rw [String.data_append]
      rfl
    · simp only [hneg, if_false, iff_false]
      exact magnitudeText_head _
  · intro hpos
    rw [heq, byte2unit_eq conv (-size) (by rw [Int.natAbs_neg]; exact hm), Int.natAbs_neg,
      if_pos (by omega), if_neg (by omega)]
  · intro h
    unfold magnitudeText
    rw [if_pos h]
  · intro h
    obtain ⟨_, p2, p3⟩ := printed_spec size.natAbs h hm
    refine ⟨?_, p2.1, p2.2, p3⟩
    unfold magnitudeText
    rw [if_neg (by omega)]
  · refine ⟨?_, ?_, ?_⟩
    · rw [byte2unit_eq conv 0 (by decide)]; decide
    · rw [byte2unit_eq conv 1500 (by decide)]; decide
    · rw [byte2unit_eq conv (-2500000) (by decide)]; decide

/-- C1 (witness): the amended statement at `size = -2500000`. -/
theorem byte2unit_amended_witness :
    (-(2 ^ 63 - 512) < (-2500000 : Int) ∧ (-2500000 : Int) < 2 ^ 63 - 512) ∧
      byte2unit convAmd64 (-2500000) = "-" ++ magnitudeText 2500000 :=
  ⟨by decide, (byte2unit_amended convAmd64 (-2500000) (by decide) (by decide)).1⟩

/-- The conversion `float64(i)` of a non-zero `int64`: relative error at most `2^-53`. -/
theorem ofInt_rel (i : Int) (hi : i ≠ 0) (hr : i.natAbs ≤ 2 ^ 63) :
    ∃ M E, F64.ofInt i = .finite (decide (i < 0)) M E ∧ 2 ^ 52 ≤ M ∧
      |(M : ℚ) * (2 : ℚ) ^ E - (i.natAbs : ℚ)| ≤ (i.natAbs : ℚ) / 2 ^ 53 := by
  have h0 : 0 < i.natAbs := Int.natAbs_pos.mpr hi
  have a1 : (2 : ℚ) ^ (0 : ℤ) ≤ (i.natAbs : ℚ) / (1 : ℕ) := by
    have : (1 : ℚ) ≤ (i.natAbs : ℚ) := by exact_mod_cast h0
    simpa using this
  have a2 : (i.natAbs : ℚ) / (1 : ℕ) < (2 : ℚ) ^ (64 : ℤ) := by
    have : (i.natAbs : ℚ) < ((2 ^ 64 : ℕ) : ℚ) := Nat.cast_lt.mpr (by omega)
    norm_num at this ⊢
    exact this
  obtain ⟨L1, L2⟩ := floorLog2_bounds i.natAbs 1 h0 (by norm_num) 0 64 a1 a2
  obtain ⟨M, E, r1, r2, _, _, _, r6⟩ :=
    round_rel (decide (i < 0)) i.natAbs 1 h0 (by norm_num) (by omega) (by omega)
  exact ⟨M, E, r1, r2, by simpa using r6⟩

/-- Four roundings in a row: conversion of both operands, division, multiplication by 100. -/
theorem rel_chain (u D B x1 x2 x3 x4 : ℚ) (hu : 0 < u) (hu1 : u < 1) (hD : 0 < D) (hB : 0 < B)
    (h1 : |x1 - D| ≤ D * u) (h2 : |x2 - B| ≤ B * u)
    (h3 : |x3 - x1 / x2| ≤ (x1 / x2) * u) (h4 : |x4 - x3 * 100| ≤ (x3 * 100) * u) :
    x4 * (B * (1 - u)) ≤ 100 * D * (1 + u) ^ 3 ∧ 100 * D * (1 - u) ^ 3 ≤ x4 * (B * (1 + u)) := by
  rw [abs_le] at h1 h2 h3 h4
  have p1 : 0 < 1 - u := by linarith
  have p2 : 0 < 1 + u := by linarith
  have x1lo : D * (1 - u) ≤ x1 := by linarith [h1.1]
  have x1hi : x1 ≤ D * (1 + u) := by linarith [h1.2]
  have x2lo : B * (1 - u) ≤ x2 := by linarith [h2.1]
  have x2hi : x2 ≤ B * (1 + u) := by linarith [h2.2]
  have x1pos : 0 < x1 := lt_of_lt_of_le (by positivity) x1lo
  have x2pos : 0 < x2 := lt_of_lt_of_le (by positivity) x2lo
  have rpos : 0 < x1 / x2 := by positivity
  have x3lo : (x1 / x2) * (1 - u) ≤ x3 := by linarith [h3.1]
  have x3hi : x3 ≤ (x1 / x2) * (1 + u) := by linarith [h3.2]
  have x3pos : 0 < x3 := lt_of_lt_of_le (by positivity) x3lo
  have x4lo : x3 * 100 * (1 - u) ≤ x4 := by linarith [h4.1]
  have x4hi : x4 ≤ x3 * 100 * (1 + u) := by linarith [h4.2]
  have x4pos : 0 < x4 := lt_of_lt_of_le (by positivity) x4lo
  have rx : x1 / x2 * x2 = x1 := div_mul_cancel₀ x1 x2pos.ne'
  constructor
  · calc x4 * (B * (1 - u)) ≤ x4 * x2 := mul_le_mul_of_nonneg_left x2lo x4pos.le
      _ ≤ (x3 * 100 * (1 + u)) * x2 := mul_le_mul_of_nonneg_right x4hi x2pos.le
      _ ≤ ((x1 / x2) * (1 + u) * 100 * (1 + u)) * x2 := by
          apply mul_le_mul_of_nonneg_right _ x2pos.le
          apply mul_le_mul_of_nonneg_right _ p2.le
          apply mul_le_mul_of_nonneg_right x3hi (by norm_num)
      _ = x1 * (100 * (1 + u) ^ 2) := by rw [← rx]; field_simp; ring
      _ ≤ D * (1 + u) * (100 * (1 + u) ^ 2) :=
          mul_le_mul_of_nonneg_right x1hi (by positivity)
      _ = 100 * D * (1 + u) ^ 3 := by ring
  · calc 100 * D * (1 - u) ^ 3 = D * (1 - u) * (100 * (1 - u) ^ 2) := by ring
      _ ≤ x1 * (100 * (1 - u) ^ 2) := mul_le_mul_of_nonneg_right x1lo (by positivity)
      _ = ((x1 / x2) * (1 - u) * 100 * (1 - u)) * x2 := by rw [← rx]; field_simp; ring
      _ ≤ (x3 * 100 * (1 - u)) * x2 := by
          apply mul_le_mul_of_nonneg_right _ x2pos.le
          apply mul_le_mul_of_nonneg_right _ p1.le
          apply mul_le_mul_of_nonneg_right x3lo (by norm_num)
      _ ≤ x4 * x2 := mul_le_mul_of_nonneg_right x4lo x2pos.le
      _ ≤ x4 * (B * (1 + u)) := mul_le_mul_of_nonneg_left x2hi x4pos.le

theorem hundred_value :
    ((7036874417766400 : ℕ) : ℚ) * (2 : ℚ) ^ (-46 : ℤ) = 100 := by
  rw [zpow_neg]; norm_num

/-- The binary64 computation of `diffRate` on a non-zero difference `d` and a non-zero
`before`: the result is finite, has the sign of `d / before`, and the hundredths printed by
`%.2f` are within `1/2 + x / 2^50` of `x = 10000 * |d| / |before|`. -/
theorem rate_core (d b : Int) (hd : d ≠ 0) (hb : b ≠ 0) (hdr : d.natAbs ≤ 2 ^ 63)
    (hbr : b.natAbs ≤ 2 ^ 63) :
    ∃ M4 E4, F64.mul (F64.div (F64.ofInt d) (F64.ofInt b)) (F64.ofInt 100)
        = .finite (xor (decide (d < 0)) (decide (b < 0))) M4 E4 ∧
      2 ^ 51 * (hundredths M4 E4 * b.natAbs)
        ≤ 2 ^ 51 * (10000 * d.natAbs) + 2 ^ 50 * b.natAbs + 20000 * d.natAbs ∧
      2 ^ 51 * (10000 * d.natAbs)
        ≤ 2 ^ 51 * (hundredths M4 E4 * b.natAbs) + 2 ^ 50 * b.natAbs + 20000 * d.natAbs := by
  obtain ⟨M1, E1, o1, c1, r1⟩ := ofInt_rel d hd hdr
  obtain ⟨M2, E2, o2, c2, r2⟩ := ofInt_rel b hb hbr
  have hD0 : 0 < d.natAbs := Int.natAbs_pos.mpr hd
  have hB0 : 0 < b.natAbs := Int.natAbs_pos.mpr hb
  set D : ℚ := (d.natAbs : ℚ) with hD
  set B : ℚ := (b.natAbs : ℚ) with hB
  have hD1 : (1 : ℚ) ≤ D := by rw [hD]; exact_mod_cast hD0
  have hB1 : (1 : ℚ) ≤ B := by rw [hB]; exact_mod_cast hB0
  have hD2 : D ≤ 2 ^ 63 := by rw [hD]; exact_mod_cast hdr
  have hB2 : B ≤ 2 ^ 63 := by rw [hB]; exact_mod_cast hbr
  set x1 : ℚ := (M1 : ℚ) * (2 : ℚ) ^ E1 with hx1
  set x2 : ℚ := (M2 : ℚ) * (2 : ℚ) ^ E2 with hx2
  have a1 := abs_le.mp r1
  have a2 := abs_le.mp r2
  have x1lo : 1 / 2 ≤ x1 := by
    have : D / 2 ^ 53 ≤ D / 2 := by
      apply div_le_div_of_nonneg_left (by linarith) (by norm_num) (by norm_num)
    linarith [a1.1]
  have x1hi : x1 ≤ 2 ^ 64 := by
    have : D / 2 ^ 53 ≤ D := div_le_self (by linarith) (by norm_num)
    norm_num at hD2 ⊢; linarith [a1.2]
  have x2lo : 1 / 2 ≤ x2 := by
    have : B / 2 ^ 53 ≤ B / 2 := by
      apply div_le_div_of_nonneg_left (by linarith) (by norm_num) (by norm_num)
    linarith [a2.1]
  have x2hi : x2 ≤ 2 ^ 64 := by
    have : B / 2 ^ 53 ≤ B := div_le_self (by linarith) (by norm_num)
    norm_num at hB2 ⊢; linarith [a2.2]
  have x1pos : 0 < x1 := by linarith
  have x2pos : 0 < x2 := by linarith
  have M1pos : 0 < M1 := by
    have : 0 < 2 ^ 52 := by norm_num
    omega
  have M2pos : 0 < M2 := by
    have : 0 < 2 ^ 52 := by norm_num
    omega
  -- the quotient
  have q1 : (2 : ℚ) ^ (-65 : ℤ) ≤ x1 / x2 := by
    rw [le_div_iff₀ x2pos, zpow_neg]
    norm_num at x2hi ⊢; linarith
  have q2 : x1 / x2 < (2 : ℚ) ^ (66 : ℤ) := by
    rw [div_lt_iff₀ x2pos]
    norm_num at x1hi ⊢; linarith
  obtain ⟨M3, E3, o3, c3, _, _, _, r3⟩ :=
    div_rel (decide (d < 0)) (decide (b < 0)) M1 M2 E1 E2 M1pos M2pos (-65) 66
      (by norm_num) (by norm_num) q1 q2
  rw [← hx1, ← hx2] at r3
  set x3 : ℚ := (M3 : ℚ) * (2 : ℚ) ^ E3 with hx3
  have a3 := abs_le.mp r3
  have rpos : 0 < x1 / x2 := by positivity
  have x3lo : (2 : ℚ) ^ (-66 : ℤ) ≤ x3 := by
    have : x1 / x2 / 2 ^ 53 ≤ x1 / x2 / 2 := by
      apply div_le_div_of_nonneg_left rpos.le (by norm_num) (by norm_num)
    have e : (2 : ℚ) ^ (-66 : ℤ) = (2 : ℚ) ^ (-65 : ℤ) / 2 := by
      rw [zpow_neg, zpow_neg]; norm_num
    rw [e]; linarith [a3.1]
  have x3hi : x3 ≤ 2 ^ 67 := by
    have : x1 / x2 / 2 ^ 53 ≤ x1 / x2 := div_le_self rpos.le (by norm_num)
    norm_num at q2 ⊢; linarith [a3.2]
  have x3pos : 0 < x3 := lt_of_lt_of_le (by positivity) x3lo
  have M3pos : 0 < M3 := by
    have : 0 < 2 ^ 52 := by norm_num
    omega
  -- the product with 100
  have m1 : (2 : ℚ) ^ (-66 : ℤ) ≤ x3 * (((7036874417766400 : ℕ) : ℚ) * (2 : ℚ) ^ (-46 : ℤ)) := by
    rw [hundred_value]; linarith
  have m2 : x3 * (((7036874417766400 : ℕ) : ℚ) * (2 : ℚ) ^ (-46 : ℤ)) < (2 : ℚ) ^ (74 : ℤ) := by
    rw [hundred_value]; norm_num at x3hi ⊢; linarith
  obtain ⟨M4, E4, o4, c4, _, _, _, r4⟩ :=
    mul_rel (xor (decide (d < 0)) (decide (b < 0))) false M3 7036874417766400 E3 (-46) M3pos
      (by norm_num) (-66) 74 (by norm_num) (by norm_num) m1 m2
  rw [← hx3, hundred_value] at r4
  set x4 : ℚ := (M4 : ℚ) * (2 : ℚ) ^ E4 with hx4
  refine ⟨M4, E4, ?_, ?_⟩
  · rw [o1, o2, o3, ofInt_hundred, o4]; simp
  · obtain ⟨k1, k2⟩ := rel_chain (1 / 2 ^ 53) D B x1 x2 x3 x4 (by norm_num) (by norm_num)
      (by linarith) (by linarith) (by rw [mul_one_div]; exact r1) (by rw [mul_one_div]; exact r2)
      (by rw [mul_one_div]; exact r3) (by rw [mul_one_div]; exact r4)
    have hs := abs_le.mp (hundredths_spec M4 E4)
    rw [← hx4] at hs
    set q : ℚ := (hundredths M4 E4 : ℚ) with hq
    have B0 : 0 ≤ B := by linarith
    have s1 : q * B ≤ (100 * x4 + 1 / 2) * B := mul_le_mul_of_nonneg_right (by linarith [hs.2]) B0
    have s2 : (100 * x4 - 1 / 2) * B ≤ q * B := mul_le_mul_of_nonneg_right (by linarith [hs.1]) B0
    have n1 : (1 + (1 : ℚ) / 2 ^ 53) ^ 3 ≤ (1 + 1 / 2 ^ 50) * (1 - 1 / 2 ^ 53) := by norm_num
    have n2 : (1 - (1 : ℚ) / 2 ^ 50) * (1 + 1 / 2 ^ 53) ≤ (1 - 1 / 2 ^ 53) ^ 3 := by norm_num
    have p1 : (0 : ℚ) < 1 - 1 / 2 ^ 53 := by norm_num
    have p2 : (0 : ℚ) < 1 + 1 / 2 ^ 53 := by norm_num
    have D0 : (0 : ℚ) ≤ 100 * D := by linarith
    have u1 : x4 * B ≤ 100 * D * (1 + 1 / 2 ^ 50) := by
      apply le_of_mul_le_mul_right _ p1
      calc x4 * B * (1 - 1 / 2 ^ 53) = x4 * (B * (1 - 1 / 2 ^ 53)) := by ring
        _ ≤ 100 * D * (1 + 1 / 2 ^ 53) ^ 3 := k1
        _ ≤ 100 * D * ((1 + 1 / 2 ^ 50) * (1 - 1 / 2 ^ 53)) := mul_le_mul_of_nonneg_left n1 D0
        _ = 100 * D * (1 + 1 / 2 ^ 50) * (1 - 1 / 2 ^ 53) := by ring
    have u2 : 100 * D * (1 - 1 / 2 ^ 50) ≤ x4 * B := by
      apply le_of_mul_le_mul_right _ p2
      calc 100 * D * (1 - 1 / 2 ^ 50) * (1 + 1 / 2 ^ 53)
          = 100 * D * ((1 - 1 / 2 ^ 50) * (1 + 1 / 2 ^ 53)) := by ring
        _ ≤ 100 * D * (1 - 1 / 2 ^ 53) ^ 3 := mul_le_mul_of_nonneg_left n2 D0
        _ ≤ x4 * (B * (1 + 1 / 2 ^ 53)) := k2
        _ = x4 * B * (1 + 1 / 2 ^ 53) := by ring
    have s1' : q * B ≤ 100 * (x4 * B) + B / 2 := by
      calc q * B ≤ (100 * x4 + 1 / 2) * B := s1
        _ = 100 * (x4 * B) + B / 2 := by ring
    have s2' : 100 * (x4 * B) - B / 2 ≤ q * B := by
      calc 100 * (x4 * B) - B / 2 = (100 * x4 - 1 / 2) * B := by ring
        _ ≤ q * B := s2
    have t1 : (2 : ℚ) ^ 51 * (q * B) ≤ 2 ^ 51 * (10000 * D) + 2 ^ 50 * B + 20000 * D := by
      linarith
    have t2 : (2 : ℚ) ^ 51 * (10000 * D) ≤ 2 ^ 51 * (q * B) + 2 ^ 50 * B + 20000 * D := by
      linarith
    rw [hq, hB, hD] at t1 t2
    constructor
    · exact_mod_cast t1
    · exact_mod_cast t2

theorem wrap64_id (x : Int) (h : isInt64 x) : wrap64 x = x := by
  unfold isInt64 at h
  unfold wrap64
  norm_num at h ⊢
  omega

theorem round_zero (neg : Bool) (d : Nat) : F64.round neg 0 d = .finite neg 0 0 := by
  simp [F64.round]

theorem scaleNum_zero (e : Int) : scaleNum 0 e = 0 := by
  unfold scaleNum; split_ifs <;> simp

/-- The computation of `diffRate` when `after = before`: a zero with the sign of `before`. -/
theorem rate_zero (b : Int) (hb : b ≠ 0) (hbr : b.natAbs ≤ 2 ^ 63) :
    F64.mul (F64.div (F64.ofInt 0) (F64.ofInt b)) (F64.ofInt 100)
      = .finite (decide (b < 0)) 0 0 := by
  obtain ⟨M2, E2, o2, c2, _⟩ := ofInt_rel b hb hbr
  have hM2 : M2 ≠ 0 := by
    have : 0 < 2 ^ 52 := by norm_num
    omega
  have o0 : F64.ofInt 0 = .finite false 0 0 := by decide
  rw [o0, o2, ofInt_hundred]
  simp [F64.div, F64.mul, hM2, scaleNum_zero, round_zero]

/-- C2 (counterexample). The rate is computed in binary64 on the wrapped difference: from
20000 to 20001 (0.005 %) the code prints "0.01%" and from 20000 to 20003 (0.015 %) it
prints "0.01%" too, so the ties of the exact value go up in one case and down in the other;
with `before = -1`, `after = 2^63 - 1` the int64 difference wraps and the code prints a
positive rate where the exact value is negative; with `before = 1`, `after = 2^62` the
conversion to float64 rounds the difference and the integer part is off by 100; with
`before = after = -5` the code prints "-0.00%" for the value 0. -/
theorem diffRate_counterexample :
    diffRate 20000 20001 = "0.01%" ∧ diffRate 20000 20003 = "0.01%" ∧
      diffRateSpec 20000 20001 = "0.00%" ∧ diffRateSpec 20000 20003 = "0.02%" ∧
      diffRate (-1) (2 ^ 63 - 1) = "922337203685477580800.00%" ∧
      diffRateSpec (-1) (2 ^ 63 - 1) = "-922337203685477580800.00%" ∧
      diffRate 1 (2 ^ 62) = "461168601842738790400.00%" ∧
      diffRateSpec 1 (2 ^ 62) = "461168601842738790300.00%" ∧
      diffRate (-5) (-5) = "-0.00%" ∧ diffRateSpec (-5) (-5) = "0.00%" := by
  decide

/-- C2 (amended). For `before ≠ 0` and a difference `after - before` that fits `int64`,
`diffRate` is `q` hundredths of a percent in two-decimal form followed by "%", with a "-"
exactly when the difference and `before` do not have the same sign class (so "-0.00%"
when `after = before < 0`); `q` is the result of the binary64 computation, within
`1/2 + x / 2^50` of `x = 10000 * |after - before| / |before|`, and a nearest integer to
`x` when `|after - before| < 5 * 10^10`.  The two examples of the specification hold. -/
theorem diffRate_amended (before after : Int) (hb : before ≠ 0) (hbr : isInt64 before)
    (hdr : isInt64 (after - before)) :
    (diffRate before after =
        (if (after - before < 0 ↔ before < 0) then dec2 (rateHundredths before after)
          else "-" ++ dec2 (rateHundredths before after)) ++ "%") ∧
      (2 ^ 51 * (rateHundredths before after * before.natAbs)
          ≤ 2 ^ 51 * (10000 * (after - before).natAbs) + 2 ^ 50 * before.natAbs
            + 20000 * (after - before).natAbs ∧
        2 ^ 51 * (10000 * (after - before).natAbs)
          ≤ 2 ^ 51 * (rateHundredths before after * before.natAbs) + 2 ^ 50 * before.natAbs
            + 20000 * (after - before).natAbs) ∧
      ((after - before).natAbs < 50000000000 →
        2 * (rateHundredths before after * before.natAbs)
          ≤ 2 * (10000 * (after - before).natAbs) + before.natAbs ∧
        2 * (10000 * (after - before).natAbs)
          ≤ 2 * (rateHundredths before after * before.natAbs) + before.natAbs) ∧
      (diffRate 100 80 = "-20.00%" ∧ diffRate 100 150 = "50.00%") := by
  have hB : before.natAbs ≤ 2 ^ 63 := by
    unfold isInt64 at hbr; norm_num at hbr ⊢; omega
  have hD : (after - before).natAbs ≤ 2 ^ 63 := by
    unfold isInt64 at hdr; norm_num at hdr ⊢; omega
  have key : ∃ M E, F64.mul (F64.div (F64.ofInt (wrap64 (after - before))) (F64.ofInt before))
        (F64.ofInt 100) = .finite (xor (decide (after - before < 0)) (decide (before < 0))) M E ∧
      2 ^ 51 * (hundredths M E * before.natAbs)
        ≤ 2 ^ 51 * (10000 * (after - before).natAbs) + 2 ^ 50 * before.natAbs
          + 20000 * (after - before).natAbs ∧
      2 ^ 51 * (10000 * (after - before).natAbs)
        ≤ 2 ^ 51 * (hundredths M E * before.natAbs) + 2 ^ 50 * before.natAbs
          + 20000 * (after - before).natAbs := by
    rw [wrap64_id _ hdr]
    by_cases hd : after - before = 0
    · refine ⟨0, 0, ?_, ?_, ?_⟩
      · rw [hd, rate_zero before hb hB]; simp
      · rw [hd]
        have : hundredths 0 0 = 0 := by decide
        simp [this]
      · rw [hd]; simp
    · exact rate_core (after - before) before hd hb hD hB
  obtain ⟨M, E, k1, k2, k3⟩ := key
  have hq : rateHundredths before after = hundredths M E := by
    unfold rateHundredths; rw [k1]
  rw [hq]
  refine ⟨?_, ⟨k2, k3⟩, ?_, by decide, by decide⟩
  · unfold diffRate
    rw [k1]
    unfold fmt2
    by_cases h1 : after - before < 0 <;> by_cases h2 : before < 0 <;> simp [h1, h2]
  · intro hsmall
    constructor <;> omega

/-- C2 (witness): the amended statement at `before = 300000`, `after = 250000`. -/
theorem diffRate_amended_witness :
    ((300000 : Int) ≠ 0 ∧ isInt64 300000 ∧ isInt64 (250000 - 300000)) ∧
      diffRate 300000 250000 =
        (if ((250000 : Int) - 300000 < 0 ↔ (300000 : Int) < 0)
          then dec2 (rateHundredths 300000 250000)
          else "-" ++ dec2 (rateHundredths 300000 250000)) ++ "%" :=
  ⟨by decide, (diffRate_amended 300000 250000 (by decide) (by decide) (by decide)).1⟩

theorem rowsOf_set_same (conv : F64 → Int) : ∀ (imgs : List Image) (pcs : List Pc) (i : Nat)
    (pc pc' : Pc), pcs[i]? = some pc → pc.past = pc'.past →
    rowsOf conv imgs (pcs.set i pc') = rowsOf conv imgs pcs
  | [], pcs, i, pc, pc', _, _ => by
    cases hp : pcs.set i pc' <;> cases pcs <;> simp [rowsOf]
  | img :: imgs, [], i, pc, pc', h, _ => by simp at h
  | img :: imgs, p :: pcs, 0, pc, pc', h, hp => by
    simp at h
    subst h
    simp [rowsOf, hp]
  | img :: imgs, p :: pcs, i + 1, pc, pc', h, hp => by
    simp at h
    simp [rowsOf, rowsOf_set_same conv imgs pcs i pc pc' h hp]

theorem rowsOf_set_append (conv : F64 → Int) : ∀ (imgs : List Image) (pcs : List Pc) (i : Nat)
    (img : Image) (pc pc' : Pc), imgs[i]? = some img → pcs[i]? = some pc →
    pc.past = false → pc'.past = true →
    (rowsOf conv imgs pcs ++ [tableRow conv img.path img.before img.after]).Perm
      (rowsOf conv imgs (pcs.set i pc'))
  | [], pcs, i, img, pc, pc', h, _, _, _ => by simp at h
  | g :: imgs, [], i, img, pc, pc', _, h, _, _ => by simp at h
  | g :: imgs, p :: pcs, 0, img, pc, pc', hi, hp, h1, h2 => by
    simp at hi hp
    subst hi hp
    simp only [List.set_cons_zero, rowsOf, h1, h2, if_true]
    simp only [Bool.false_eq_true, if_false]
    exact List.perm_append_singleton _ _
  | g :: imgs, p :: pcs, i + 1, img, pc, pc', hi, hp, h1, h2 => by
    simp at hi hp
    have ih := rowsOf_set_append conv imgs pcs i img pc pc' hi hp h1 h2
    simp only [List.set_cons_succ, rowsOf]
    split_ifs
    · exact List.Perm.cons _ ih
    · exact ih

theorem rowsOf_allDone (conv : F64 → Int) : ∀ (imgs : List Image) (pcs : List Pc),
    pcs.length = imgs.length → (∀ pc ∈ pcs, pc = Pc.done) →
    rowsOf conv imgs pcs = imgs.map fun g => tableRow conv g.path g.before g.after
  | [], [], _, _ => by simp [rowsOf]
  | [], _ :: _, h, _ => by simp at h
  | _ :: _, [], h, _ => by simp at h
  | g :: imgs, p :: pcs, h, hd => by
    have hp : p = Pc.done := hd p (by simp)
    subst hp
    have ih := rowsOf_allDone conv imgs pcs (by simpa using h)
      (fun pc hpc => hd pc (by simp [hpc]))
    simp [rowsOf, Pc.past, ih]

theorem rowsOf_start (conv : F64 → Int) : ∀ l : List Image,
    rowsOf conv l (List.replicate l.length Pc.start) = []
  | [] => by simp [rowsOf]
  | g :: l => by simp [rowsOf, List.replicate_succ, Pc.past, rowsOf_start conv l]

theorem inv_init (conv : F64 → Int) (imgs : List Image) : Inv conv imgs (initState imgs) := by
  refine ⟨by simp [initState], ?_, ?_, ⟨[], by simp [initState], ?_⟩⟩
  · intro j pc h
    simp only [initState, List.getElem?_replicate] at h
    split_ifs at h
    simp at h
    subst h
    simp [Pc.holds, initState]
  · intro j t h
    simp only [initState, List.getElem?_replicate] at h
    split_ifs at h
    simp at h
  · simp [initState, rowsOf_start]

theorem getElem?_set_cases (l : List Pc) (i j : Nat) (x pc : Pc)
    (h : (l.set i x)[j]? = some pc) : (j = i ∧ pc = x) ∨ (j ≠ i ∧ l[j]? = some pc) := by
  rw [List.getElem?_set] at h
  split_ifs at h with h1 h2
  · left; exact ⟨h1.symm, by simpa using h.symm⟩
  · right; exact ⟨fun h' => h1 h'.symm, h⟩

/-- A step that keeps the mutex and the table, and moves a goroutine between two program
counters of the same kind, keeps the invariant. -/
theorem inv_move (conv : F64 → Int) (imgs : List Image) (s : State) (i : Nat) (pc pc' : Pc)
    (tb ta : Int) (hinv : Inv conv imgs s) (hpc : s.pcs[i]? = some pc)
    (hh : pc.holds = pc'.holds) (hp : pc.past = pc'.past)
    (ha : ∀ t, pc' = Pc.appending t → t = s.table) :
    Inv conv imgs { s with totalBefore := tb, totalAfter := ta, pcs := s.pcs.set i pc' } := by
  obtain ⟨h1, h2, h3, rows, h4, h5⟩ := hinv
  refine ⟨by simpa using h1, ?_, ?_, ⟨rows, h4, ?_⟩⟩
  · intro j q hq
    rcases getElem?_set_cases _ _ _ _ _ hq with ⟨rfl, rfl⟩ | ⟨_, hq'⟩
    · rw [← hh]; exact h2 j pc hpc
    · exact h2 j q hq'
  · intro j t hq
    rcases getElem?_set_cases _ _ _ _ _ hq with ⟨rfl, hq'⟩ | ⟨_, hq'⟩
    · exact ha t hq'.symm
    · exact h3 j t hq'
  · simp only
    rw [rowsOf_set_same conv imgs s.pcs i pc pc' hpc hp]
    exact h5

/-- Every step keeps the invariant of the optimization phase. -/
theorem inv_step (conv : F64 → Int) (imgs : List Image) (i : Nat) (s s' : State)
    (hinv : Inv conv imgs s) (hs : step conv imgs i s = some s') : Inv conv imgs s' := by
  unfold step at hs
  cases hi : imgs[i]? with
  | none => simp [hi] at hs
  | some img =>
    cases hp : s.pcs[i]? with
    | none => simp [hi, hp] at hs
    | some pc =>
      simp only [hi, hp] at hs
      cases pc with
      | start =>
        simp only at hs
        split_ifs at hs with hm
        simp only [Option.some.injEq] at hs
        subst hs
        obtain ⟨h1, h2, h3, rows, h4, h5⟩ := hinv
        refine ⟨by simpa using h1, ?_, ?_, ⟨rows, h4, ?_⟩⟩
        · intro j q hq
          rcases getElem?_set_cases _ _ _ _ _ hq with ⟨rfl, rfl⟩ | ⟨hne, hq'⟩
          · simp [Pc.holds]
          · have := h2 j q hq'
            rw [hm] at this
            simp only [this]
            simp only [Option.some.injEq]
            constructor
            · intro h; exact absurd h (by simp)
            · intro h; exact absurd h.symm hne
        · intro j t hq
          rcases getElem?_set_cases _ _ _ _ _ hq with ⟨rfl, hq'⟩ | ⟨_, hq'⟩
          · cases hq'
          · exact h3 j t hq'
        · simp only
          rw [rowsOf_set_same conv imgs s.pcs i Pc.start Pc.locked hp rfl]
          exact h5
      | locked =>
        simp only [Option.some.injEq] at hs
        subst hs
        have := inv_move conv imgs s i Pc.locked (Pc.appending s.table) s.totalBefore
          s.totalAfter hinv hp rfl rfl (fun t ht => by injection ht with ht; exact ht.symm)
        exact this
      | appending t =>
        simp only [Option.some.injEq] at hs
        subst hs
        obtain ⟨h1, h2, h3, rows, h4, h5⟩ := hinv
        have ht : t = s.table := h3 i t hp
        have hmi : s.mutex = some i := (h2 i _ hp).mp rfl
        refine ⟨by simpa using h1, ?_, ?_, ⟨rows ++ [tableRow conv img.path img.before img.after],
          ?_, ?_⟩⟩
        · intro j q hq
          rcases getElem?_set_cases _ _ _ _ _ hq with ⟨rfl, rfl⟩ | ⟨hne, hq'⟩
          · simp [Pc.holds, hmi]
          · exact h2 j q hq'
        · intro j t' hq
          rcases getElem?_set_cases _ _ _ _ _ hq with ⟨rfl, hq'⟩ | ⟨hne, hq'⟩
          · cases hq'
          · have := (h2 j _ hq').mp rfl
            rw [hmi] at this
            exact absurd (Option.some.inj this).symm hne
        · simp only [ht, h4, List.append_assoc]
        · simp only
          exact (List.Perm.append_right _ h5).trans
            (rowsOf_set_append conv imgs s.pcs i img _ Pc.unlocking hi hp rfl rfl)
      | unlocking =>
        simp only [Option.some.injEq] at hs
        subst hs
        obtain ⟨h1, h2, h3, rows, h4, h5⟩ := hinv
        have hmi : s.mutex = some i := (h2 i _ hp).mp rfl
        refine ⟨by simpa using h1, ?_, ?_, ⟨rows, h4, ?_⟩⟩
        · intro j q hq
          rcases getElem?_set_cases _ _ _ _ _ hq with ⟨rfl, rfl⟩ | ⟨hne, hq'⟩
          · simp [Pc.holds]
          · have := h2 j q hq'
            rw [hmi] at this
            simp only [this]
            simp only [Option.some.injEq]
            constructor
            · intro h; exact absurd h.symm hne
            · intro h; exact absurd h (by simp)
        · intro j t hq
          rcases getElem?_set_cases _ _ _ _ _ hq with ⟨rfl, hq'⟩ | ⟨_, hq'⟩
          · cases hq'
          · exact h3 j t hq'
        · simp only
          rw [rowsOf_set_same conv imgs s.pcs i Pc.unlocking Pc.loadBefore hp rfl]
          exact h5
      | loadBefore =>
        simp only [Option.some.injEq] at hs
        subst hs
        exact inv_move conv imgs s i Pc.loadBefore (Pc.storeBefore s.totalBefore) s.totalBefore
          s.totalAfter hinv hp rfl rfl (fun t ht => by cases ht)
      | storeBefore r =>
        simp only [Option.some.injEq] at hs
        subst hs
        exact inv_move conv imgs s i (Pc.storeBefore r) Pc.loadAfter _ s.totalAfter hinv hp
          rfl rfl (fun t ht => by cases ht)
      | loadAfter =>
        simp only [Option.some.injEq] at hs
        subst hs
        exact inv_move conv imgs s i Pc.loadAfter (Pc.storeAfter s.totalAfter) s.totalBefore
          s.totalAfter hinv hp rfl rfl (fun t ht => by cases ht)
      | storeAfter r =>
        simp only [Option.some.injEq] at hs
        subst hs
        exact inv_move conv imgs s i (Pc.storeAfter r) Pc.done s.totalBefore _ hinv hp
          rfl rfl (fun t ht => by cases ht)
      | done => simp at hs

/-- Every execution keeps the invariant. -/
theorem inv_run (conv : F64 → Int) (imgs : List Image) : ∀ (sched : List Nat) (s s' : State),
    Inv conv imgs s → run conv imgs sched s = some s' → Inv conv imgs s'
  | [], s, s', hinv, h => by
    simp only [run, Option.some.injEq] at h
    subst h; exact hinv
  | i :: rest, s, s', hinv, h => by
    simp only [run] at h
    cases hs : step conv imgs i s with
    | none => simp [hs] at h
    | some s1 =>
      simp only [hs] at h
      exact inv_run conv imgs rest s1 s' (inv_step conv imgs i s s1 hinv hs) h

theorem wrap64_add (a b : Int) : wrap64 (wrap64 a + b) = wrap64 (a + b) := by
  unfold wrap64
  norm_num
  omega

theorem wrap64_zero : wrap64 0 = 0 := by decide

theorem mid_get (k r : Nat) (pc : Pc) :
    (List.replicate k Pc.done ++ pc :: List.replicate r Pc.start)[k]? = some pc := by
  rw [List.getElem?_append_right (by simp)]
  simp

theorem mid_set (k r : Nat) (pc pc' : Pc) :
    (List.replicate k Pc.done ++ pc :: List.replicate r Pc.start).set k pc'
      = List.replicate k Pc.done ++ pc' :: List.replicate r Pc.start := by
  rw [List.set_append_right _ _ (by simp)]
  simp

theorem replicate_snoc (k : Nat) (pc : Pc) (l : List Pc) :
    List.replicate k pc ++ pc :: l = pc :: (List.replicate k pc ++ l) := by
  induction k with
  | zero => rfl
  | succ n ih => simp [List.replicate_succ, ih]

theorem run_append (conv : F64 → Int) (imgs : List Image) :
    ∀ (a b : List Nat) (s : State),
    run conv imgs (a ++ b) s = (run conv imgs a s).bind (run conv imgs b)
  | [], b, s => by simp [run]
  | i :: a, b, s => by
    simp only [List.cons_append, run]
    cases step conv imgs i s with
    | none => simp
    | some s' => exact run_append conv imgs a b s'

/-- One goroutine running alone through its eight steps. -/
theorem run_one (conv : F64 → Int) (imgs : List Image) (k : Nat) (hk : k < imgs.length) :
    run conv imgs (List.replicate 8 k) (stateAfter conv imgs k)
      = some (stateAfter conv imgs (k + 1)) := by
  have hi : imgs[k]? = some imgs[k] := List.getElem?_eq_getElem hk
  have hr : imgs.length - k = (imgs.length - (k + 1)) + 1 := by omega
  have htake : imgs.take (k + 1) = imgs.take k ++ [imgs[k]] := by
    rw [List.take_succ, hi]; rfl
  simp only [stateAfter, hr, List.replicate_succ, run, step, hi, mid_get, mid_set,
    if_true, htake, List.map_append, List.map_cons, List.map_nil, List.sum_append,
    List.sum_cons, List.sum_nil, add_zero, wrap64_add, List.append_assoc]
  simp [List.replicate_succ', replicate_snoc]

/-- Running the goroutines one after the other from the state after the first `k`. -/
theorem run_serial (conv : F64 → Int) (imgs : List Image) :
    ∀ (count k : Nat), k + count = imgs.length →
    run conv imgs (serialSchedule k count) (stateAfter conv imgs k)
      = some (stateAfter conv imgs imgs.length)
  | 0, k, h => by
    have : k = imgs.length := by omega
    subst this
    simp [serialSchedule, run]
  | count + 1, k, h => by
    rw [serialSchedule, run_append, run_one conv imgs k (by omega)]
    exact run_serial conv imgs count (k + 1) (by omega)

/-- When the goroutines run one after the other, the join is reached with the totals equal
to the sums of the sizes (reduced to `int64`) and one row per image in the order of the
list. -/
theorem serial_totals (conv : F64 → Int) (imgs : List Image) :
    ∃ s, run conv imgs (serialSchedule 0 imgs.length) (initState imgs) = some s ∧ allDone s ∧
      s.totalBefore = wrap64 (imgs.map fun g => g.before).sum ∧
      s.totalAfter = wrap64 (imgs.map fun g => g.after).sum ∧
      s.table = tableHeader ++ imgs.map fun g => tableRow conv g.path g.before g.after := by
  have h0 : initState imgs = stateAfter conv imgs 0 := by
    simp [initState, stateAfter, wrap64_zero]
  refine ⟨stateAfter conv imgs imgs.length, ?_, ?_, ?_, ?_, ?_⟩
  · rw [h0]; exact run_serial conv imgs imgs.length 0 (by omega)
  · intro pc hpc
    simp [stateAfter] at hpc
    exact hpc.2
  · simp [stateAfter]
  · simp [stateAfter]
  · simp [stateAfter]

/-- After the join, `reportTable` is the header followed by one row per image, in the order
in which the goroutines appended. -/
theorem table_after_join (conv : F64 → Int) (imgs : List Image) (sched : List Nat) (s : State)
    (hrun : run conv imgs sched (initState imgs) = some s) (hdone : allDone s) :
    ∃ rows, rows.Perm (imgs.map fun g => tableRow conv g.path g.before g.after) ∧
      s.table = tableHeader ++ rows := by
  obtain ⟨h1, _, _, rows, h4, h5⟩ := inv_run conv imgs sched _ s (inv_init conv imgs) hrun
  refine ⟨rows, ?_, h4⟩
  rw [← rowsOf_allDone conv imgs s.pcs h1 hdone]
  exact h5

/-- The row appended to the table is written while the goroutine holds the mutex. -/
theorem append_under_mutex (conv : F64 → Int) (imgs : List Image) (sched : List Nat)
    (s : State) (hrun : run conv imgs sched (initState imgs) = some s) (j : Nat)
    (t : List String) (hj : s.pcs[j]? = some (Pc.appending t)) :
    s.mutex = some j ∧ t = s.table := by
  obtain ⟨_, h2, h3, _⟩ := inv_run conv imgs sched _ s (inv_init conv imgs) hrun
  exact ⟨(h2 j _ hj).mp rfl, h3 j t hj⟩

/-- C4 (counterexample). In the end-to-end scenario of the specification, run one goroutine
after the other, the list is not empty and the delta is not zero, and yet no document is
produced when `os.Create` fails: the error is printed and the program exits (lines 71-75). -/
theorem document_create_fails :
    run convAmd64 scenario [0, 0, 0, 0, 0, 0, 0, 0, 1, 1, 1, 1, 1, 1, 1, 1]
        (initState scenario) = some scenarioFinal ∧
      allDone scenarioFinal ∧ scenario ≠ [] ∧
      wrap64 (scenarioFinal.totalAfter - scenarioFinal.totalBefore) = -50000 ∧
      document convAmd64 scenario scenarioFinal false = none ∧
      (document convAmd64 scenario scenarioFinal true).isSome = true := by
  decide

/-- C4 (amended). For every image list, every execution of the optimization phase and the
state `s` after the join: no document is produced when the list is empty, when
`totalAfterSize - totalBeforeSize = 0`, or when `os.Create` fails; in every other case the
content handed to `file.Write` is the title, a blank line, the section header, the summary
sentence with `byte2unit(totalAfterSize - totalBeforeSize)` and `diffRate(totalBeforeSize,
totalAfterSize)`, a blank line, "<details>", the summary and table-header lines, one row per
image (in the order of completion), the Total row, a blank line and "</details>", joined by
newlines. -/
theorem document_spec (conv : F64 → Int) (imgs : List Image) (sched : List Nat) (s : State)
    (hrun : run conv imgs sched (initState imgs) = some s) (hdone : allDone s) :
    (imgs = [] ∨ wrap64 (s.totalAfter - s.totalBefore) = 0 →
        ∀ createOk, document conv imgs s createOk = none) ∧
      document conv imgs s false = none ∧
      (imgs ≠ [] → wrap64 (s.totalAfter - s.totalBefore) ≠ 0 →
        ∃ rows, rows.Perm (imgs.map fun g => tableRow conv g.path g.before g.after) ∧
          document conv imgs s true = some (String.intercalate "\n"
            (["[imgcmp] Optimize images", "", "## Successfully optimized",
              "Your image files have been optimized (File size: **" ++
                byte2unit conv (wrap64 (s.totalAfter - s.totalBefore)) ++ "** (**" ++
                diffRate s.totalBefore s.totalAfter ++ "**))!",
              "", "<details>", "", "<summary>details</summary>", "",
              "|File Name|Before|After|Diff (size)|Diff (rate)|", "|:---|---:|---:|---:|---:|"]
              ++ rows ++
              [tableRow conv "Total" s.totalBefore s.totalAfter, "", "</details>"]))) := by
  refine ⟨?_, ?_, ?_⟩
  · rintro (h | h) createOk
    · simp [document, h]
    · simp [document, h]
  · simp [document]
  · intro hne hdelta
    obtain ⟨rows, hperm, htab⟩ := table_after_join conv imgs sched s hrun hdone
    refine ⟨rows, hperm, ?_⟩
    have hlen : imgs.length ≠ 0 := by
      intro h; exact hne (List.length_eq_zero.mp h)
    simp [document, hlen, hdelta, htab, summaryLine, tableHeader]

/-- C4 (witness): the end-to-end scenario of the specification, run one goroutine after the
other, when `os.Create` succeeds. -/
theorem document_spec_witness :
    ∃ rows, rows.Perm (scenario.map fun g => tableRow convAmd64 g.path g.before g.after) ∧
      document convAmd64 scenario scenarioFinal true = some (String.intercalate "\n"
        (["[imgcmp] Optimize images", "", "## Successfully optimized",
          "Your image files have been optimized (File size: **" ++
            byte2unit convAmd64 (wrap64 (scenarioFinal.totalAfter - scenarioFinal.totalBefore))
            ++ "** (**" ++
            diffRate scenarioFinal.totalBefore scenarioFinal.totalAfter ++ "**))!",
          "", "<details>", "", "<summary>details</summary>", "",
          "|File Name|Before|After|Diff (size)|Diff (rate)|", "|:---|---:|---:|---:|---:|"]
          ++ rows ++
          [tableRow convAmd64 "Total" scenarioFinal.totalBefore scenarioFinal.totalAfter, "",
            "</details>"])) :=
  (document_spec convAmd64 scenario [0, 0, 0, 0, 0, 0, 0, 0, 1, 1, 1, 1, 1, 1, 1, 1]
    scenarioFinal (by decide) (by decide)).2.2 (by decide) (by decide)

/-- C3 (the code at the failing input). In the scenario of the specification, when the
second goroutine reads `totalBeforeSize` before the first has written it and writes it
before the first does, the join is reached with `totalBeforeSize = 200000` instead of
`300000`, and the Total row reports a growth of 25%. -/
theorem totals_lost_update :
    (run convAmd64 scenario [0, 0, 0, 0, 0, 1, 1, 1, 1, 1, 1, 0, 0, 0, 1, 1]
        (initState scenario)).map
        (fun s => (decide (allDone s), s.totalBefore, s.totalAfter,
          tableRow convAmd64 "Total" s.totalBefore s.totalAfter))
      = some (true, 200000, 250000, "|Total|200.00 kB|250.00 kB|50.00 kB|25.00%|") := by
  decide

/-- C9 (the code at the failing input). After both goroutines of the scenario have appended
their rows and read `totalBeforeSize`, both are about to write `totalBeforeSize` (each with
the value 0 that it has read) and nobody holds the mutex. -/
theorem totals_written_without_mutex :
    (run convAmd64 scenario [0, 0, 0, 0, 0, 1, 1, 1, 1, 1] (initState scenario)).map
        (fun s => (s.mutex, s.pcs, s.pcs.map Pc.writesShared))
      = some (none, [Pc.storeBefore 0, Pc.storeBefore 0], [true, true]) := by
  decide

theorem mustCompile_skipDir : mustCompile "^\\..+" = .ok skipDirRe := by decide

theorem closure_nil (f : Nat → List Nat) : ∀ fuel, closure f fuel [] = []
  | 0 => rfl
  | fuel + 1 => by simp [closure, closure_nil f fuel]

theorem closure_ne_nil (f : Nat → List Nat) (fuel : Nat) (ps : List Nat) (h : ps ≠ []) :
    closure f fuel ps ≠ [] := by
  cases fuel with
  | zero => simpa [closure] using h
  | succ n => simp [closure, h]

theorem closure_isEmpty (f : Nat → List Nat) (fuel : Nat) (ps : List Nat) (h : ps ≠ []) :
    (closure f fuel ps).isEmpty = false := by
  have := closure_ne_nil f fuel ps h
  cases hc : closure f fuel ps with
  | nil => exact absurd hc this
  | cons a l => rfl

theorem any_range_zero (p : Nat → Bool) (n : Nat) (h : ∀ i, i ≠ 0 → p i = false) :
    (List.range (n + 1)).any p = p 0 := by
  rw [List.any_eq]
  by_cases h0 : p 0 = true
  · simp only [h0, decide_eq_true_eq]
    exact ⟨0, by simp, h0⟩
  · have h0' : p 0 = false := by simpa using h0
    simp only [h0', decide_eq_false_iff_not]
    rintro ⟨i, _, hi⟩
    by_cases hi0 : i = 0
    · subst hi0; rw [h0'] at hi; exact absurd hi (by simp)
    · rw [h i hi0] at hi; exact absurd hi (by simp)

/-- The expression of `skipDirRegexp` matches exactly the names that start with a dot
followed by a character other than a newline. -/
theorem skipDir_matches (name : String) : skipDirRe.matchString name = skippedName name := by
  unfold Re.matchString
  rw [any_range_zero]
  · unfold skippedName skipDirRe
    rcases hn : name.data with _ | ⟨c, _ | ⟨d, rest⟩⟩
    · simp [Re.ends]
    · by_cases hc : c = '.'
      · subst hc
        simp [Re.ends, closure]
      · simp [Re.ends, hc]
    · by_cases hc : c = '.'
      · subst hc
        by_cases hd : d = '\n'
        · subst hd
          simp [Re.ends, closure_nil]
        · simp [Re.ends, hd, closure_isEmpty]
      · simp [Re.ends, hc]
  · intro i hi
    simp [skipDirRe, Re.ends, hi]

/-- The paths that `filepath.Walk` forms are in clean form, whatever the form of the root. -/
theorem joinPath_clean :
    joinPath "r" ".git" = "r/.git" ∧ joinPath "./r" "a" = "r/a" ∧ joinPath "." "a" = "a" ∧
      joinPath "r//" "a" = "r/a" ∧ joinPath "a/../r" "x" = "r/x" ∧ joinPath "/" "a" = "/a" ∧
      joinPath ".." "a" = "../a" ∧ joinPath "../.." "a" = "../../a" ∧ joinPath "/.." "a" = "/a" ∧
      joinPath "a/b/../../.." "c" = "../c" ∧ joinPath "r/sub" "y.png" = "r/sub/y.png" ∧
      joinPath "/a//b/./c/" "d" = "/a/b/c/d" := by
  decide

mutual
theorem files_perm : ∀ (path : String) (node : Node),
    (filesIn path node).Perm (shownFiles skippedName path node ++ hiddenFiles skippedName path node)
  | path, .file n => by simp [filesIn, shownFiles, hiddenFiles]
  | path, .dir name children => by
    simp only [filesIn, shownFiles, hiddenFiles]
    split_ifs
    · simp
    · exact filesList_perm path children
theorem filesList_perm : ∀ (path : String) (children : List Node),
    (filesInList path children).Perm (shownList skippedName path children ++ hiddenList skippedName path children)
  | path, [] => by simp [filesInList, shownList, hiddenList]
  | path, child :: rest => by
    simp only [filesInList, shownList, hiddenList]
    have h1 := files_perm (joinPath path child.name) child
    have h2 := filesList_perm path rest
    refine (List.Perm.append h1 h2).trans ?_
    simp only [List.append_assoc]
    refine List.Perm.append_left _ ?_
    rw [← List.append_assoc, ← List.append_assoc]
    exact List.Perm.append_right _ List.perm_append_comm
end

mutual
theorem walk_shown (exec : String → List String → Option String) (ign : String → Bool) :
    ∀ (path : String) (node : Node) (acc res : List String),
    walk exec ign skipDirRe.matchString path node acc = .ok res →
    ∃ extra, res = acc ++ extra ∧ ∀ p ∈ extra, p ∈ shownFiles skippedName path node
  | path, .file n, acc, res, h => by
    simp only [walk] at h
    split at h
    · cases h
    · split at h
      · cases h
      · split_ifs at h
        · injection h with h
          exact ⟨[path], h.symm, by simp [shownFiles]⟩
        · injection h with h
          exact ⟨[], by simp [h], by simp⟩
  | path, .dir name children, acc, res, h => by
    simp only [walk, skipDir_matches] at h
    split_ifs at h with hs
    · injection h with h
      exact ⟨[], by simp [h], by simp⟩
    · obtain ⟨extra, e1, e2⟩ := walkList_shown exec ign path children acc res h
      exact ⟨extra, e1, by simpa [shownFiles, hs] using e2⟩
theorem walkList_shown (exec : String → List String → Option String) (ign : String → Bool) :
    ∀ (path : String) (children : List Node) (acc res : List String),
    walkList exec ign skipDirRe.matchString path children acc = .ok res →
    ∃ extra, res = acc ++ extra ∧ ∀ p ∈ extra, p ∈ shownList skippedName path children
  | path, [], acc, res, h => by
    simp only [walkList] at h
    injection h with h
    exact ⟨[], by simp [h], by simp⟩
  | path, child :: rest, acc, res, h => by
    simp only [walkList] at h
    split at h
    · cases h
    · rename_i acc' hw
      obtain ⟨x1, a1, b1⟩ := walk_shown exec ign (joinPath path child.name) child acc acc' hw
      obtain ⟨x2, a2, b2⟩ := walkList_shown exec ign path rest acc' res h
      refine ⟨x1 ++ x2, by rw [a2, a1, List.append_assoc], ?_⟩
      intro p hp
      simp only [shownList, List.mem_append] at hp ⊢
      rcases hp with hp | hp
      · exact Or.inl (b1 p hp)
      · exact Or.inr (b2 p hp)
end

theorem prune_name (node : Node) : (prune node).name = node.name := by
  cases node with
  | file n => simp [prune, Node.name]
  | dir n cs =>
    simp only [prune]
    split_ifs <;> simp [Node.name]

mutual
theorem walk_prune (exec : String → List String → Option String) (ign : String → Bool) :
    ∀ (path : String) (node : Node) (acc : List String),
    walk exec ign skipDirRe.matchString path (prune node) acc = walk exec ign skipDirRe.matchString path node acc
  | path, .file n, acc => by simp [prune]
  | path, .dir name children, acc => by
    simp only [prune]
    split_ifs with hs
    · simp [walk, skipDir_matches, hs]
    · simp only [walk, skipDir_matches, hs]
      simp only [Bool.false_eq_true, if_false]
      exact walkList_prune exec ign path children acc
theorem walkList_prune (exec : String → List String → Option String) (ign : String → Bool) :
    ∀ (path : String) (children : List Node) (acc : List String),
    walkList exec ign skipDirRe.matchString path (pruneList children) acc
      = walkList exec ign skipDirRe.matchString path children acc
  | path, [], acc => by simp [pruneList]
  | path, child :: rest, acc => by
    simp only [pruneList, walkList, prune_name, walk_prune exec ign _ child acc]
    split
    · rfl
    · exact walkList_prune exec ign path rest _
end

mutual
theorem walk_congr (exec exec' : String → List String → Option String) (ign : String → Bool) :
    ∀ (path : String) (node : Node) (acc : List String),
    (∀ p ∈ shownFiles skippedName path node, exec "file" [p] = exec' "file" [p]) →
    walk exec ign skipDirRe.matchString path node acc
      = walk exec' ign skipDirRe.matchString path node acc
  | path, .file n, acc, h => by
    have hp : exec "file" [path] = exec' "file" [path] := h path (by simp [shownFiles])
    simp only [walk, execCommand, hp]
  | path, .dir name children, acc, h => by
    simp only [walk, skipDir_matches]
    split_ifs with hs
    · rfl
    · exact walkList_congr exec exec' ign path children acc
        (fun p hp => h p (by simpa [shownFiles, hs] using hp))
theorem walkList_congr (exec exec' : String → List String → Option String)
    (ign : String → Bool) :
    ∀ (path : String) (children : List Node) (acc : List String),
    (∀ p ∈ shownList skippedName path children, exec "file" [p] = exec' "file" [p]) →
    walkList exec ign skipDirRe.matchString path children acc
      = walkList exec' ign skipDirRe.matchString path children acc
  | path, [], acc, _ => by simp [walkList]
  | path, child :: rest, acc, h => by
    simp only [walkList]
    rw [walk_congr exec exec' ign (joinPath path child.name) child acc
      (fun p hp => h p (by simp [shownList, hp]))]
    split
    · rfl
    · exact walkList_congr exec exec' ign path rest _
        (fun p hp => h p (by simp [shownList, hp]))
end

/-- Directories whose name the expression of `skipDirRegexp` matches (a dot followed by a
character other than a newline) are skipped whole.  For every tree, every external world and
every ignore list, `makeImageList` ends in the same way, with the same list or the same
failure, as on the tree without the contents of these directories, and as in every external
world that answers `file` in the same way on the files outside them; and when every file has
its own path, no path from inside such a directory is in the list. -/
theorem skipped_dirs_not_walked (exec : String → List String → Option String) (root : String)
    (tree : Node) (ignoredFileList : List String) :
    makeImageList exec root (prune tree) ignoredFileList
        = makeImageList exec root tree ignoredFileList ∧
      (∀ exec' : String → List String → Option String,
        (∀ p ∈ shownFiles skippedName root tree, exec "file" [p] = exec' "file" [p]) →
        makeImageList exec root tree ignoredFileList
          = makeImageList exec' root tree ignoredFileList) ∧
      ((filesIn root tree).Nodup → ∀ result : List String,
        makeImageList exec root tree ignoredFileList = .ok result →
        ∀ p ∈ result, p ∉ hiddenFiles skippedName root tree) := by
  refine ⟨?_, ?_, ?_⟩
  · unfold makeImageList
    rw [mustCompile_skipDir]
    split
    · rfl
    · split
      · rfl
      · exact walk_prune exec _ root tree []
  · intro exec' h
    unfold makeImageList
    rw [mustCompile_skipDir]
    split
    · rfl
    · split
      · rfl
      · exact walk_congr exec exec' _ root tree [] h
  · intro hpaths result h
    unfold makeImageList at h
    rw [mustCompile_skipDir] at h
    split at h
    · cases h
    · split at h
      · cases h
      · simp only at h
        obtain ⟨extra, e1, e2⟩ := walk_shown exec _ root tree [] result h
        have hnd := (files_perm root tree).nodup_iff.mp hpaths
        have hdis := (List.nodup_append.mp hnd).2.2
        intro p hp hhid
        rw [e1] at hp
        simp only [List.nil_append] at hp
        exact hdis (e2 p hp) hhid

/-- The directory `.git` next to an image is skipped: the image is listed, the file in
`.git` is not, and the outcome is the same when `file` fails on the file in `.git`. -/
theorem dot_git_skipped :
    makeImageList execPng "r" dotGitTree [] = .ok ["r/a.png"] ∧
      hiddenFiles skippedName "r" dotGitTree = ["r/.git/x.png"] ∧
      makeImageList (fun command args => if args = ["r/.git/x.png"] then none
        else execPng command args) "r" dotGitTree [] = .ok ["r/a.png"] := by
  decide

theorem splitSpace_ne_nil : ∀ l : List Char, splitSpace l ≠ []
  | [] => by simp [splitSpace]
  | c :: cs => by
    simp only [splitSpace]
    split
    · simp
    · split_ifs <;> simp

/-- An output with a space splits into at least two fields. -/
theorem splitSpace_two : ∀ l : List Char, ' ' ∈ l → ∃ a b rest, splitSpace l = a :: b :: rest
  | [], h => by simp at h
  | c :: cs, h => by
    simp only [splitSpace]
    cases hs : splitSpace cs with
    | nil => exact absurd hs (splitSpace_ne_nil cs)
    | cons w ws =>
      simp only
      by_cases hc : c = ' '
      · simp [hc]
      · have hcs : ' ' ∈ cs := by
          rcases List.mem_cons.mp h with h' | h'
          · exact absurd h'.symm hc
          · exact h'
        obtain ⟨a, b, rest, hab⟩ := splitSpace_two cs hcs
        rw [hs] at hab
        injection hab with h1 h2
        subst h1 h2
        simp [hc]

/-- An output without a space is a single field. -/
theorem splitSpace_one : ∀ l : List Char, ' ' ∉ l → splitSpace l = [l]
  | [], _ => by simp [splitSpace]
  | c :: cs, h => by
    have hc : c ≠ ' ' := fun hc => h (by simp [hc])
    have hcs : ' ' ∉ cs := fun h' => h (List.mem_cons_of_mem _ h')
    simp [splitSpace, splitSpace_one cs hcs, hc]

theorem secondField_no_space (output : String) (h : ' ' ∉ output.data) :
    secondField output = .error .panic := by
  simp [secondField, splitSpace_one _ h]

/-- What `fileSize` returns: the size when `os.Open` and `Stat` succeed, and a panic
otherwise. -/
theorem fileSize_spec (fs : FileSys) (path : String) :
    (fileSize fs path).2 =
      match fs.osOpen path with
      | .ok f =>
        (match fs.stat f with
          | .ok size => .ok size
          | .error _ => .error .panic)
      | .error _ => .error .panic := by
  unfold fileSize
  cases h1 : fs.osOpen path with
  | error e => simp [fileStat]
  | ok f =>
    simp only [fileStat]
    cases h2 : fs.stat f <;> simp

/-- The pattern used for the empty ignore list matches nothing. -/
theorem mustCompile_never : mustCompile "0^" = .ok (.cat (.lit '0') .bol) := by decide

theorem never_matches (path : String) : (Re.cat (.lit '0') .bol).matchString path = false := by
  unfold Re.matchString
  rw [List.any_eq_false]
  intro start _
  simp only [Re.ends]
  split_ifs <;> simp

/-- With the empty ignore list every supported image outside skipped directories is listed:
the file callback does not depend on the path. -/
theorem empty_list_excludes_nothing (exec : String → List String → Option String)
    (root : String) (tree : Node) :
    makeImageList exec root tree []
      = walk exec (Re.cat (.lit '0') .bol).matchString skipDirRe.matchString root tree [] := by
  unfold makeImageList
  have h0 : mustCompile (String.intercalate "|" []) = .ok .empty := by decide
  simp [h0, mustCompile_never, mustCompile_skipDir]

mutual
theorem walk_result (exec : String → List String → Option String) (ign : String → Bool) :
    ∀ (path : String) (node : Node) (acc res : List String),
    walk exec ign skipDirRe.matchString path node acc = .ok res →
    res = acc ++ (shownFiles skippedName path node).filter (listed exec ign)
  | path, .file n, acc, res, h => by
    simp only [walk, execCommand] at h
    simp only [shownFiles, List.filter, listed]
    cases hx : exec "file" [path] with
    | none => simp [hx] at h
    | some output =>
      simp only [hx] at h ⊢
      cases hf : secondField output with
      | error e => simp [hf] at h
      | ok t =>
        simp only [hf] at h ⊢
        split_ifs at h with hc
        · injection h with h
          simp [hc, h]
        · injection h with h
          simp only [Bool.not_eq_true] at hc
          simp [hc, h]
  | path, .dir name children, acc, res, h => by
    simp only [walk, skipDir_matches] at h
    simp only [shownFiles]
    split_ifs at h with hs
    · injection h with h
      simp [h, hs]
    · rw [if_neg hs]
      exact walkList_result exec ign path children acc res h
theorem walkList_result (exec : String → List String → Option String) (ign : String → Bool) :
    ∀ (path : String) (children : List Node) (acc res : List String),
    walkList exec ign skipDirRe.matchString path children acc = .ok res →
    res = acc ++ (shownList skippedName path children).filter (listed exec ign)
  | path, [], acc, res, h => by
    simp only [walkList] at h
    injection h with h
    simp [shownList, h]
  | path, child :: rest, acc, res, h => by
    simp only [walkList] at h
    split at h
    · cases h
    · rename_i acc' hw
      have h1 := walk_result exec ign (joinPath path child.name) child acc acc' hw
      have h2 := walkList_result exec ign path rest acc' res h
      rw [h2, h1]
      simp [shownList, List.filter_append]
end

/-- The list that `makeImageList` returns when it completes: the files outside skipped
directories, in the order of the walk, that pass the test of the callback with the
expression compiled from the ignore list. -/
theorem makeImageList_result (exec : String → List String → Option String) (root : String)
    (tree : Node) (ignoredFileList result : List String) (ign : Re)
    (hne : ignoredFileList ≠ [])
    (hc : mustCompile (String.intercalate "|" ignoredFileList) = .ok ign)
    (h : makeImageList exec root tree ignoredFileList = .ok result) :
    result = (shownFiles skippedName root tree).filter (listed exec ign.matchString) := by
  unfold makeImageList at h
  have hlen : ignoredFileList.length ≠ 0 := fun h0 => hne (List.length_eq_zero.mp h0)
  simp only [hc, hlen, if_false, mustCompile_skipDir] at h
  simpa using walk_result exec ign.matchString root tree [] result h

/-- C5 (amended). For every output of the file-type command that contains a space, the
second field `t` of the output exists and classification does not fail: `optimizeImage`
runs the optimizer of the type `ImageType.ofToken t` (JPEG, PNG, GIF or SVG exactly when `t`
is that literal) and nothing for every other `t`, and the callback of `makeImageList` lists
the file exactly when it is not ignored and the type is not unsupported. -/
theorem classify_amended (output : String) (h : ' ' ∈ output.data) :
    ∃ t : String, (splitSpace output.data)[1]? = some t.data ∧ secondField output = .ok t ∧
      ∀ (exec : String → List String → Option String) (path : String),
        exec "file" [path] = some output →
        optimizeImage exec path =
            (match optimizerOf (ImageType.ofToken t) path with
              | none => .ok none
              | some c => (execCommand exec c.1 c.2).map fun _ => some c) ∧
          ∀ (ign skip : String → Bool) (name : String) (acc : List String),
            walk exec ign skip path (.file name) acc =
              .ok (if !ign path && decide (ImageType.ofToken t ≠ .unsupported)
                then acc ++ [path] else acc) := by
  obtain ⟨a, b, rest, hab⟩ := splitSpace_two output.data h
  have hsf : secondField output = .ok (String.mk b) := by simp [secondField, hab]
  refine ⟨String.mk b, by simp [hab], hsf, ?_⟩
  intro exec path hfile
  have hex : execCommand exec "file" [path] = .ok output := by simp [execCommand, hfile]
  generalize String.mk b = t at hsf
  constructor
  · unfold optimizeImage
    simp only [hex, hsf, bind, Except.bind, pure, Except.pure, isJPEG, isPNG, isGIF, isSVG,
      beq_iff_eq]
    by_cases h1 : t = "JPEG"
    · subst h1
      rw [show ImageType.ofToken "JPEG" = ImageType.jpeg from by decide]
      simp only [optimizerOf, if_true]
      cases execCommand exec "jpegoptim" ["-m85", path] <;> rfl
    · by_cases h2 : t = "PNG"
      · subst h2
        rw [show ImageType.ofToken "PNG" = ImageType.png from by decide]
        simp only [optimizerOf, if_true]
        rw [if_neg (by decide)]
        cases execCommand exec "optipng" ["-o2", path] <;> rfl
      · by_cases h3 : t = "GIF"
        · subst h3
          rw [show ImageType.ofToken "GIF" = ImageType.gif from by decide]
          simp only [optimizerOf, if_true]
          rw [if_neg (by decide), if_neg (by decide)]
          cases execCommand exec "gifsicle" ["-b", "-O3", "--colors", "256", path] <;> rfl
        · by_cases h4 : t = "SVG"
          · subst h4
            rw [show ImageType.ofToken "SVG" = ImageType.svg from by decide]
            simp only [optimizerOf, if_true]
            rw [if_neg (by decide), if_neg (by decide), if_neg (by decide)]
            cases execCommand exec "svgo" [path] <;> rfl
          · simp only [ImageType.ofToken, h1, h2, h3, h4, if_false, optimizerOf]
  · intro ign skip name acc
    simp only [walk, hex, hsf, isJPEG, isPNG, isGIF, isSVG]
    unfold ImageType.ofToken
    by_cases h1 : t = "JPEG"
    · subst h1; simp; split_ifs <;> rfl
    · by_cases h2 : t = "PNG"
      · subst h2; simp; split_ifs <;> rfl
      · by_cases h3 : t = "GIF"
        · subst h3; simp; split_ifs <;> rfl
        · by_cases h4 : t = "SVG"
          · subst h4; simp; split_ifs <;> rfl
          · simp [h1, h2, h3, h4]

/-- C5 (witness): the amended statement at an output of the `file` utility. -/
theorem classify_amended_witness :
    ' ' ∈ "a.png: PNG image data".data ∧
      ∃ t : String, (splitSpace "a.png: PNG image data".data)[1]? = some t.data ∧
        secondField "a.png: PNG image data" = .ok t ∧
        ∀ (exec : String → List String → Option String) (path : String),
          exec "file" [path] = some "a.png: PNG image data" →
          optimizeImage exec path =
              (match optimizerOf (ImageType.ofToken t) path with
                | none => .ok none
                | some c => (execCommand exec c.1 c.2).map fun _ => some c) ∧
            ∀ (ign skip : String → Bool) (name : String) (acc : List String),
              walk exec ign skip path (.file name) acc =
                .ok (if !ign path && decide (ImageType.ofToken t ≠ .unsupported)
                  then acc ++ [path] else acc) :=
  ⟨by decide, classify_amended "a.png: PNG image data" (by decide)⟩

/-- C8 (the code at the failing input). When `os.Open` fails, `fileSize` prints the error of
`Open` and the error of `Stat` on the nil file, and then panics in `info.Size()`; the same
when only `Stat` fails.  It returns the size when both calls succeed. -/
theorem fileSize_failure_panics :
    fileSize noFiles "a.png"
        = (["open a.png: no such file or directory", "invalid argument"], .error .panic) ∧
      fileSize noStat "a.png" = (["stat: input/output error"], .error .panic) ∧
      fileSize allFiles "a.png" = ([], .ok 1234) := by
  decide

/-- C5 (counterexample). An output of `file` without a space has no second field: the index
expression panics, in `optimizeImage` and in `makeImageList`, where the claim has the type
Unsupported (no optimizer run, the file not listed). -/
theorem classify_without_second_field :
    secondField "data" = .error .panic ∧
      optimizeImage execNoSpace "a.png" = .error .panic ∧
      makeImageList execNoSpace "r" (.dir "r" [.file "a.png"]) [] = .error .panic := by
  decide

/-- C6 (the code at the failing input). A directory below the root whose name is a dot
followed by a newline is not skipped, because `.` in the expression of `skipDirRegexp` does
not match a newline: the image in it is in the list although it lies inside a directory
whose name begins with a dot, while the directory `.git` next to it is skipped. -/
theorem dot_newline_dir_not_skipped :
    (filesIn "r" dotNewlineTree).Nodup ∧
      makeImageList execPng "r" dotNewlineTree [] = .ok ["r/.\nx/y.png"] ∧
      "r/.\nx/y.png" ∈ hiddenFiles beginsWithDot "r" dotNewlineTree := by
  decide

/-- C7 (the code at the failing input). The listed path `r/photo(1).png` is read as a
regular expression that does not match the path itself, so the file is in the list; and
the listed path `r/a(b.png` is not a valid expression, so `MustCompile` panics. -/
theorem listed_path_not_excluded :
    makeImageList execPng "r" (.dir "r" [.file "photo(1).png"]) ["r/photo(1).png"]
        = .ok ["r/photo(1).png"] ∧
      makeImageList execPng "r" (.dir "r" [.file "a(b.png"]) ["r/a(b.png"] = .error .panic := by
  decide

/-- C10 (the code at the failing input). With the ignore list `["r/a.png"]` the image
`r/a.png.gif`, which is not in the list, is excluded too; with the empty list both files
are in the result. -/
theorem unlisted_path_excluded :
    makeImageList execPng "r" (.dir "r" [.file "a.png", .file "a.png.gif"]) ["r/a.png"]
        = .ok [] ∧
      makeImageList execPng "r" (.dir "r" [.file "a.png", .file "a.png.gif"]) []
        = .ok ["r/a.png", "r/a.png.gif"] := by
  decide

end Imgcmp
